import Mathlib

/-!
Verification of the concurrent file-discovery and hashing engine of the
quick-file-hasher application (src/quick-file-hasher-app.py).

The development shallowly embeds the engine classes:

* `IgnoreRule` (construction `mkIgnoreRule` mirrors `IgnoreRule.__init__`,
  matching mirrors `IgnoreRule.match` / `IgnoreRule.is_ignored`,
  parsing mirrors `IgnoreRule.parse_gitignore`);
* `QueueUpdateHandler` (state `QState`, throttled `updateProgress`);
* `CalculateHashes` (enumeration `processPathNRules` / `createJobs` over a
  model filesystem `FSNode`, hashing `hashTask`, progress `engineProgress`).

Paths are modelled as lists of name segments from the filesystem root;
`pathlib.Path.relative_to` is total in the model (it drops the base-path
prefix), matching Python on the only inputs the engine produces, namely
paths lying below the rule's base path.  Python `re` regexes produced by
`IgnoreRule._to_regex` are modelled as token lists (`GTok`) with an
executable backtracking matcher; the token translation follows the source's
escape-then-replace pipeline, except that a `[!...]` character class whose
body contains `*` or `?` is kept as a class token, whereas the source's
textual replacement would corrupt such a class (no claim involves character
classes).  The dot in the translated `.*` matches every character, whereas
Python's dot excludes the newline character; path strings never contain
newlines.
-/

set_option autoImplicit false

namespace QFH

/-- One message put on the `QueueUpdateHandler` channel; progress fractions
are modelled as rationals (the source uses Python floats; the claims proved
here depend only on ordering and on the exact values 0 and 1, which float
rounding preserves). -/
inductive Msg where
  | progress (p : ℚ)
  | result (basePath : List String) (path : List String) (hashValue : String) (algo : String)
  | error (basePath : List String) (path : List String) (message : String)
  | toast (message : String)
deriving DecidableEq

/-- A piece of the escaped pattern produced by the first phase of
`IgnoreRule._to_regex`: a literal character (later subject to the textual
`\*\*` / `\*` / `\?` replacements) or a bracket character class. -/
inductive RawPart where
  | litChar (c : Char)
  | classPart (neg : Bool) (content : List Char)
deriving DecidableEq

/-- A token of the compiled matcher, the model of one regex fragment
emitted by `IgnoreRule._to_regex`: a literal character, the translation
of two consecutive stars, of a single star, of a question mark, or a
character class. -/
inductive GTok where
  | lit (c : Char)
  | anySeq
  | starNS
  | oneNS
  | cls (neg : Bool) (content : List Char)
deriving DecidableEq

/-- Split a character list at the first closing bracket, mirroring
`pattern.find("]", i)` in `IgnoreRule._to_regex`; returns the content
before the bracket and the remainder after it. -/
def splitRB : List Char → Option (List Char × List Char)
  | [] => none
  | ']' :: rest => some ([], rest)
  | c :: rest => (splitRB rest).map (fun pr => (c :: pr.1, pr.2))

/-- Build the class part for one bracket expression, mirroring
`handle_char_class`: a body starting with an exclamation mark becomes a
negated class of its remaining (escaped, hence literal) characters. -/
def mkClassPart (content : List Char) : RawPart :=
  match content with
  | '!' :: rest => RawPart.classPart true rest
  | _ => RawPart.classPart false content

/-- First phase of `IgnoreRule._to_regex`: scan the pattern, extracting
bracket classes and escaping every other character.  Fuel-indexed so the
definition is structurally recursive and kernel-computable; callers pass
the pattern length, which always suffices since every step consumes at
least one character. -/
def scanPartsF : Nat → List Char → List RawPart
  | 0, _ => []
  | _ + 1, [] => []
  | fuel + 1, c :: rest =>
    if c == '[' && !rest.isEmpty then
      match splitRB rest with
      | none => (c :: rest).map RawPart.litChar
      | some pr => mkClassPart pr.1 :: scanPartsF fuel pr.2
    else RawPart.litChar c :: scanPartsF fuel rest

/-- Second phase of `IgnoreRule._to_regex`: the textual replacements
turning `\*\*` into a cross-separator wildcard, `\*` into a one-segment
wildcard and `\?` into a one-character wildcard, expressed on the part
list. -/
def toToks : List RawPart → List GTok
  | [] => []
  | RawPart.litChar '*' :: RawPart.litChar '*' :: rest => GTok.anySeq :: toToks rest
  | RawPart.litChar '*' :: rest => GTok.starNS :: toToks rest
  | RawPart.litChar '?' :: rest => GTok.oneNS :: toToks rest
  | RawPart.litChar c :: rest => GTok.lit c :: toToks rest
  | RawPart.classPart neg content :: rest => GTok.cls neg content :: toToks rest

/-- Membership in a raw (unescaped) regex character-class body: ranges
written with a dash, other characters literal. -/
def rangeMem : List Char → Char → Bool
  | a :: '-' :: b :: rest, c => (decide (a ≤ c) && decide (c ≤ b)) || rangeMem rest c
  | a :: rest, c => (a == c) || rangeMem rest c
  | [], _ => false

/-- Whether a character matches a class token.  A class produced from
`[!...]` has escaped (hence literal) body characters; a class kept raw may
begin with a caret and may contain ranges, as in Python `re`. -/
def clsMatch (neg : Bool) (content : List Char) (c : Char) : Bool :=
  if neg then !content.contains c
  else
    match content with
    | '^' :: rest => !rangeMem rest c
    | _ => rangeMem content c

/-- Matcher continuation for a one-segment wildcard (`[^/]*`): try the rest
of the tokens at every suffix reachable without crossing a separator. -/
def starRun (k : List Char → Bool) : List Char → Bool
  | [] => k []
  | c :: cs => k (c :: cs) || (decide (c ≠ '/') && starRun k cs)

/-- Matcher continuation for a cross-separator wildcard (`.*`): try the
rest of the tokens at every suffix. -/
def seqRun (k : List Char → Bool) : List Char → Bool
  | [] => k []
  | c :: cs => k (c :: cs) || seqRun k cs

/-- Whether a token list matches a character list exactly (the model of the
compiled regex body matching a span of the relative path). -/
def tokMatcher : List GTok → List Char → Bool
  | [], cs => cs.isEmpty
  | GTok.lit _ :: _, [] => false
  | GTok.lit c :: ts, d :: ds => (c == d) && tokMatcher ts ds
  | GTok.oneNS :: _, [] => false
  | GTok.oneNS :: ts, d :: ds => decide (d ≠ '/') && tokMatcher ts ds
  | GTok.cls _ _ :: _, [] => false
  | GTok.cls neg content :: ts, d :: ds => clsMatch neg content d && tokMatcher ts ds
  | GTok.starNS :: ts, cs => starRun (tokMatcher ts) cs
  | GTok.anySeq :: ts, cs => seqRun (tokMatcher ts) cs

/-- The suffix condition of the compiled regex (`($|/)`, or `(/|$)` for
directory-only rules; the two describe the same language): the match must
end at the end of the relative path or at a separator. -/
def endOk : List Char → Bool
  | [] => true
  | '/' :: _ => true
  | _ => false

/-- Whether, starting at the current position, some span matches the token
list and ends at a separator or at the end of the string. -/
def matchHere (toks : List GTok) (s : List Char) : Bool :=
  (List.range (s.length + 1)).any fun i => tokMatcher toks (s.take i) && endOk (s.drop i)

/-- The model of `re.search` against the wrapped pattern: the prefix
condition is `^` for anchored rules and `(^|/)` otherwise. -/
def searchToks (anchored : Bool) (toks : List GTok) (s : List Char) : Bool :=
  if anchored then matchHere toks s
  else
    (List.range (s.length + 1)).any fun i =>
      ((i == 0) || ((s.drop (i - 1)).head? == some '/')) && matchHere toks (s.drop i)

/-- Drop trailing spaces that are not escaped, on the reversed pattern;
mirrors the loop of `IgnoreRule._clean_trailing_spaces`. -/
def stripSpacesRev : List Char → List Char
  | ' ' :: rest => if rest.head? == some '\\' then ' ' :: rest else stripSpacesRev rest
  | cs => cs

/-- `IgnoreRule._clean_trailing_spaces`. -/
def cleanTrailingSpaces (p : List Char) : List Char :=
  (stripSpacesRev p.reverse).reverse

/-- The replacement of every escaped space by a plain space
(`pattern.replace("\\ ", " ")`). -/
def unescapeSpaces : List Char → List Char
  | [] => []
  | '\\' :: ' ' :: rest => ' ' :: unescapeSpaces rest
  | c :: rest => c :: unescapeSpaces rest

/-- Unescape a leading escaped hash or exclamation mark, mirroring step 4
of `IgnoreRule.__init__`. -/
def unescapeLead : List Char → List Char
  | '\\' :: c :: rest => if c == '#' || c == '!' then c :: rest else '\\' :: c :: rest
  | p => p

/-- `pattern.rstrip("/")`. -/
def rstripSlashes (p : List Char) : List Char :=
  (p.reverse.dropWhile (fun c => c == '/')).reverse

/-- One compiled ignore rule; the fields mirror the attributes set by
`IgnoreRule.__init__`, with the compiled regex represented by its token
list and the base path by its segment list. -/
structure IgnoreRule where
  negation : Bool
  directory_only : Bool
  anchored : Bool
  toks : List GTok
  base_path : List String
deriving DecidableEq

/-- `IgnoreRule.__init__`: derive the flags, strip the corresponding
markers in order, unescape, and compile the remaining pattern text. -/
def mkIgnoreRule (pat : List Char) (basePath : List String) : IgnoreRule :=
  let negation := pat.head? == some '!'
  let p1 := if negation then pat.drop 1 else pat
  let directoryOnly := p1.getLast? == some '/'
  let p2 := rstripSlashes p1
  let anchored := p2.head? == some '/'
  let p3 := if anchored then p2.drop 1 else p2
  let p4 := unescapeLead p3
  let p5 := cleanTrailingSpaces p4
  let p6 := unescapeSpaces p5
  { negation := negation
    directory_only := directoryOnly
    anchored := anchored
    toks := toToks (scanPartsF p6.length p6)
    base_path := basePath }

/-- A filesystem path as seen by the matcher: its absolute segment list and
whether `pathlib.Path.is_file()` holds for it. -/
structure PEntry where
  segs : List String
  isFile : Bool
deriving DecidableEq

/-- All proper ancestors of a path (`pathlib.Path.parents`), as segment
lists; the filesystem root is the empty list. -/
def parentsOf (segs : List String) : List (List String) :=
  (List.range segs.length).map fun i => segs.take i

/-- Render a nonempty segment list with separators, as
`PurePath.as_posix` renders a relative path. -/
def renderSegs : List String → List Char
  | [] => []
  | [s] => s.data
  | s :: rest => s.data ++ '/' :: renderSegs rest

/-- `IgnoreRule._get_rel_path`: the path relative to the rule's base path,
rendered with separators.  In the model the base path is dropped by length;
this matches `Path.relative_to` whenever the path lies below the base path,
which holds for every call the engine makes. -/
def relChars (basePath segs : List String) : List Char :=
  let d := segs.drop basePath.length
  if d.isEmpty then ['.'] else renderSegs d

/-- `IgnoreRule.match`: a directory-only rule never matches a regular file
directly; otherwise search the compiled pattern in the relative path. -/
def IgnoreRule.matchPath (r : IgnoreRule) (p : PEntry) : Bool :=
  if r.directory_only && p.isFile then false
  else searchToks r.anchored r.toks (relChars r.base_path p.segs)

/-- The loop body of `IgnoreRule.is_ignored` over the already-reversed rule
list: return on a direct match, else on a directory-only rule matching some
ancestor inside the rule's base path, else continue. -/
def isIgnoredRev (p : PEntry) : List IgnoreRule → Bool
  | [] => false
  | r :: rest =>
    if r.matchPath p then !r.negation
    else
      if r.directory_only &&
          (parentsOf p.segs).any
            (fun par => r.base_path.isPrefixOf par && r.matchPath { segs := par, isFile := false }) then
        !r.negation
      else isIgnoredRev p rest

/-- `IgnoreRule.is_ignored`: scan the rules in reverse insertion order. -/
def isIgnored (p : PEntry) (rules : List IgnoreRule) : Bool :=
  isIgnoredRev p rules.reverse

/-- Whether a rule structurally matches a path in the sense of the
`is_ignored` loop: directly, or (for a directory-only rule) on some
ancestor directory lying inside the rule's base path. -/
def structMatch (p : PEntry) (r : IgnoreRule) : Bool :=
  r.matchPath p ||
    (r.directory_only &&
      (parentsOf p.segs).any
        (fun par => r.base_path.isPrefixOf par && r.matchPath { segs := par, isFile := false }))

/-- Python whitespace as stripped by `str.strip()`. -/
def isPySpace (c : Char) : Bool :=
  c == ' ' || c == '\t' || c == '\n' || c == '\r' || c == '\x0b' || c == '\x0c'

/-- `line.strip()`. -/
def pyStrip (cs : List Char) : List Char :=
  ((cs.dropWhile isPySpace).reverse.dropWhile isPySpace).reverse

/-- The rules contributed by the lines of one ignore file rooted at
`parent`: strip each line, skip blank lines and comments, compile the
rest (the loop body of `IgnoreRule.parse_gitignore`). -/
def parseLines (lines : List (List Char)) (parent : List String) : List IgnoreRule :=
  ((lines.map pyStrip).filter (fun l => !l.isEmpty && !(l.head? == some '#'))).map
    (fun l => mkIgnoreRule l parent)

/-- The seeded rule list used when `parse_gitignore` receives no usable
`extend` list: the synthetic directory-only rule for the version-control
metadata directory, followed by the file's own rules. -/
def freshParse (lines : List (List Char)) (parent : List String) : List IgnoreRule :=
  mkIgnoreRule (".git/".data) parent :: parseLines lines parent

/-- `IgnoreRule.parse_gitignore`, with the aliasing of Python lists made
explicit: the result is the returned list together with the contents of the
caller's `extend` list after the call.  Python evaluates
`extend or [IgnoreRule(".git/", parent)]`, so a missing or empty `extend`
yields a fresh seeded list (an empty `extend` list is left untouched),
while a nonempty `extend` is aliased by the local variable and the file's
rules are appended to it in place, mutating the caller's list. -/
def parseGitignore (lines : List (List Char)) (parent : List String) :
    Option (List IgnoreRule) → List IgnoreRule × Option (List IgnoreRule)
  | none => (freshParse lines parent, none)
  | some l =>
    if l.isEmpty then (freshParse lines parent, some l)
    else (l ++ parseLines lines parent, some (l ++ parseLines lines parent))

/-- The state of a `QueueUpdateHandler`: the throttle counter `c` and the
FIFO contents `msgs` (oldest first). -/
structure QState where
  c : Nat
  msgs : List Msg
deriving DecidableEq

/-- `QueueUpdateHandler.update_progress`: increment the call counter; when
it reaches 5, or the fraction is exactly 1, reset the counter and enqueue a
progress message; otherwise enqueue nothing. -/
def updateProgress (p : ℚ) (q : QState) : QState :=
  let c1 := q.c + 1
  if c1 = 5 ∨ p = 1 then { c := 0, msgs := q.msgs ++ [Msg.progress p] }
  else { c := c1, msgs := q.msgs }

/-- `QueueUpdateHandler.update_result`. -/
def updateResult (basePath path : List String) (hashValue algo : String) (q : QState) : QState :=
  { q with msgs := q.msgs ++ [Msg.result basePath path hashValue algo] }

/-- `QueueUpdateHandler.update_error`. -/
def updateError (basePath path : List String) (message : String) (q : QState) : QState :=
  { q with msgs := q.msgs ++ [Msg.error basePath path message] }

/-- `QueueUpdateHandler.update_toast`. -/
def updateToast (message : String) (q : QState) : QState :=
  { q with msgs := q.msgs ++ [Msg.toast message] }

/-- The shared hashing state: the running byte counter
`CalculateHashes._total_bytes_read` and the queue handler.  The counter is
an integer because the error path adds `file_size - hash_task_bytes_read`,
which Python evaluates in arbitrary-precision signed arithmetic. -/
structure HState where
  bytesRead : ℤ
  q : QState
deriving DecidableEq

/-- `CalculateHashes._add_bytes_read`. -/
def addBytesRead (n : ℤ) (st : HState) : HState :=
  { st with bytesRead := st.bytesRead + n }

/-- The fraction computed by `CalculateHashes._update_progress`: the read
bytes over the total, clamped to 1, or 1 when no bytes are expected. -/
def frac (totalBytes r : ℤ) : ℚ :=
  if 0 < totalBytes then min ((r : ℚ) / (totalBytes : ℚ)) 1 else 1

/-- `CalculateHashes._update_progress`: read the shared counter, compute
the clamped fraction and submit it to the throttled queue handler.  This
sequential composition of the read and the enqueue is used only for the
per-task properties (the chunk loop of one `_hash_task` runs them in
program order); interleavings with the steps of other workers are
modelled by `FEvent` schedules below. -/
def engineProgress (totalBytes : ℤ) (st : HState) : HState :=
  { st with q := updateProgress (frac totalBytes st.bytesRead) st.q }

/-- The chunk loop of `CalculateHashes._hash_task`: for each chunk read,
feed the digest (not modelled; digests are opaque strings), add the chunk
length to the shared counter, then poll the cancellation flag — returning
at once when it is set — and otherwise submit a progress update.  The flag
is a schedule indexed by the number of reads performed so far (read 0 is
the check at the top of the task); the second component tells whether the
loop ran to completion without observing cancellation. -/
def hashChunks (cancel : Nat → Bool) (totalBytes : ℤ) :
    List ℤ → Nat → HState → HState × Bool
  | [], _, st => (st, true)
  | n :: rest, i, st =>
    let st1 := addBytesRead n st
    if cancel i then (st1, false)
    else hashChunks cancel totalBytes rest (i + 1) (engineProgress totalBytes st1)

/-- `CalculateHashes._hash_task`.  `chunks` are the byte counts of the
successful reads; `fails = true` means the next operation raised an
exception with message `emsg` (an I/O failure mid-read, or a failure before
the first read, in which case `chunks` is empty), after which the unread
remainder of the enumerated `fileSize` is credited to the shared counter,
one more progress update is submitted, and an error message is enqueued.
On success the digest `digestHex` is enqueued as a result.  The chunk-size
selection (4 MiB above the 100 MiB threshold, 1 MiB otherwise) only shapes
`chunks` and is not otherwise observable. -/
def hashTask (cancel : Nat → Bool) (totalBytes : ℤ) (basePath file : List String)
    (digestHex algo : String) (fileSize : ℤ) (chunks : List ℤ) (fails : Bool)
    (emsg : String) (st : HState) : HState :=
  if cancel 0 then st
  else
    let r := hashChunks cancel totalBytes chunks 1 st
    if !r.2 then r.1
    else
      if fails then
        let st2 := engineProgress totalBytes (addBytesRead (fileSize - chunks.sum) r.1)
        { st2 with q := updateError basePath file emsg st2.q }
      else { r.1 with q := updateResult basePath file digestHex algo r.1.q }

/-- Processing the chunks of a run with the cancellation flag never set:
each chunk adds its length to the counter and submits a progress update. -/
def chunksNC (totalBytes : ℤ) (cs : List ℤ) (st : HState) : HState :=
  cs.foldl (fun s n => engineProgress totalBytes (addBytesRead n s)) st

/-- One fine-grained step of a whole hashing run, used to quantify over
the interleavings produced by the worker pool.  The source separates,
with no synchronization, a worker's `_add_bytes_read` counter increment,
the counter read inside `_update_progress` that computes the clamped
fraction into the worker's local frame, and the
`queue_handler.update_progress(p)` call that enqueues that local fraction,
so each is a separately schedulable event tagged with its worker `w`:
`fadd w n` is `self._total_bytes_read += n`, `fread w` computes `p` from
the current counter into worker `w`'s frame, `fput w` is
`update_progress(p)` with worker `w`'s stored `p`, and `fmsg w m` is a
direct enqueue of a non-progress message (a result, error or toast). -/
inductive FEvent where
  | fadd (w : Nat) (n : ℤ)
  | fread (w : Nat)
  | fput (w : Nat)
  | fmsg (w : Nat) (m : Msg)
deriving DecidableEq

/-- The state of a fine-grained run: the shared byte counter, each
worker's last locally computed fraction, and the queue handler. -/
structure FState where
  bytesRead : ℤ
  snaps : Nat → ℚ
  q : QState

/-- Execute one fine-grained run event. -/
def fStep (totalBytes : ℤ) (st : FState) : FEvent → FState
  | FEvent.fadd _ n => { st with bytesRead := st.bytesRead + n }
  | FEvent.fread w =>
      { st with snaps := fun v => if v = w then frac totalBytes st.bytesRead else st.snaps v }
  | FEvent.fput w => { st with q := updateProgress (st.snaps w) st.q }
  | FEvent.fmsg _ m => { st with q := { c := st.q.c, msgs := st.q.msgs ++ [m] } }

/-- Execute a schedule: one interleaving of the workers' fine-grained
steps. -/
def runF (totalBytes : ℤ) (evs : List FEvent) (st : FState) : FState :=
  evs.foldl (fStep totalBytes) st

/-- The sum of the counter increments of a schedule. -/
def fAddSum : List FEvent → ℤ
  | [] => 0
  | FEvent.fadd _ n :: rest => n + fAddSum rest
  | FEvent.fread _ :: rest => fAddSum rest
  | FEvent.fput _ :: rest => fAddSum rest
  | FEvent.fmsg _ _ :: rest => fAddSum rest

/-- The state a run starts from: zero bytes read, an empty channel, the
throttle counter at `c0`.  A worker's local fraction defaults to 0; in a
well-formed schedule every `fput` is preceded by that worker's `fread`,
so the default is never enqueued. -/
def fInit (c0 : Nat) : FState :=
  { bytesRead := 0, snaps := fun _ => 0, q := { c := c0, msgs := [] } }

/-- Every counter increment of the schedule is nonnegative (chunk lengths
are nonnegative, and so are error-path remainder credits when files do not
shrink between enumeration and hashing). -/
def addsNonneg : List FEvent → Bool
  | [] => true
  | FEvent.fadd _ n :: rest => decide (0 ≤ n) && addsNonneg rest
  | FEvent.fread _ :: rest => addsNonneg rest
  | FEvent.fput _ :: rest => addsNonneg rest
  | FEvent.fmsg _ _ :: rest => addsNonneg rest

/-- No direct enqueue of the schedule carries a progress message: progress
messages reach the channel only through `update_progress`. -/
def msgsNonProgress : List FEvent → Bool
  | [] => true
  | FEvent.fmsg _ (Msg.progress _) :: _ => false
  | FEvent.fmsg _ _ :: rest => msgsNonProgress rest
  | FEvent.fadd _ _ :: rest => msgsNonProgress rest
  | FEvent.fread _ :: rest => msgsNonProgress rest
  | FEvent.fput _ :: rest => msgsNonProgress rest

/-- The worker tag of an event. -/
def tagOf : FEvent → Nat
  | FEvent.fadd v _ => v
  | FEvent.fread v => v
  | FEvent.fput v => v
  | FEvent.fmsg v _ => v

/-- Whether an event belongs to worker `w`. -/
def ownedBy (w : Nat) (e : FEvent) : Bool := tagOf e == w

/-- One worker's own event sequence, as the chunk loop of `_hash_task`
emits it: one increment / read / submit round per chunk (or one for the
error-path remainder credit), followed by at most one direct enqueue (the
final result, or the error message). -/
def workerShape : List FEvent → Bool
  | [] => true
  | [FEvent.fmsg _ _] => true
  | FEvent.fadd _ _ :: FEvent.fread _ :: FEvent.fput _ :: rest => workerShape rest
  | _ => false

/-- The worker tags mentioned by a schedule. -/
def workersOf (evs : List FEvent) : List Nat := evs.map tagOf

/-- A schedule is an arbitrary interleaving of per-worker `_hash_task`
event sequences: the subsequence of each worker's own events has the
shape the task's loop emits. -/
def wfSched (evs : List FEvent) : Bool :=
  (workersOf evs).all (fun w => workerShape (evs.filter (ownedBy w)))

/-- A well-formed schedule over a job set of 8 bytes in which workers 1-5
read stale fractions 1/8..5/8, worker 6 credits the last three bytes,
reads the fraction 1 and enqueues it, and then the five stale workers
submit: the first four submissions advance the throttle counter and the
fifth passes the 1-in-5 throttle, enqueueing the stale fraction 5/8 after
the 1. -/
def cSched : List FEvent :=
  [FEvent.fadd 1 1, FEvent.fread 1,
   FEvent.fadd 2 1, FEvent.fread 2,
   FEvent.fadd 3 1, FEvent.fread 3,
   FEvent.fadd 4 1, FEvent.fread 4,
   FEvent.fadd 5 1, FEvent.fread 5,
   FEvent.fadd 6 3, FEvent.fread 6, FEvent.fput 6,
   FEvent.fmsg 6 (Msg.result ["b"] ["b", "f6"] ("d6") ("sha256")),
   FEvent.fput 1, FEvent.fput 2, FEvent.fput 3, FEvent.fput 4, FEvent.fput 5]

/-- The progress fractions of a message list, in channel order. -/
def progressVals : List Msg → List ℚ
  | [] => []
  | Msg.progress p :: rest => p :: progressVals rest
  | _ :: rest => progressVals rest

/-- A model filesystem tree.  A regular file carries its `stat` size and,
for ignore files, its text lines; a directory carries its named children in
`iterdir` order; a symbolic link carries its fully resolved target (`none`
for a dangling link).  By convention a link target is itself never a
`symlink` node. -/
inductive FSNode where
  | file (size : Nat) (lines : List (List Char))
  | dir (children : List (String × FSNode))
  | symlink (target : Option FSNode)

/-- Follow a symbolic link one step; link targets are pre-resolved, so this
models full resolution. -/
def resolve1 : FSNode → FSNode
  | FSNode.symlink (some t) => t
  | n => n

/-- `Path.is_symlink()`: true for the link itself, never resolved. -/
def fsIsSymlink : FSNode → Bool
  | FSNode.symlink _ => true
  | _ => false

/-- `Path.is_file()`: resolves symbolic links. -/
def fsIsFile (n : FSNode) : Bool :=
  match resolve1 n with
  | FSNode.file _ _ => true
  | _ => false

/-- `Path.is_dir()`: resolves symbolic links. -/
def fsIsDir (n : FSNode) : Bool :=
  match resolve1 n with
  | FSNode.dir _ => true
  | _ => false

/-- `Path.exists()`: resolves symbolic links, so a dangling link does not
exist. -/
def fsExists (n : FSNode) : Bool :=
  match resolve1 n with
  | FSNode.file _ _ => true
  | FSNode.dir _ => true
  | _ => false

/-- `Path.iterdir()` on a directory (or a link to one). -/
def fsChildren (n : FSNode) : List (String × FSNode) :=
  match resolve1 n with
  | FSNode.dir cs => cs
  | _ => []

/-- `Path.stat().st_size` of a regular file. -/
def fsSize (n : FSNode) : Nat :=
  match resolve1 n with
  | FSNode.file size _ => size
  | _ => 0

/-- Look up a directory entry by name. -/
def lookupFS : List (String × FSNode) → String → Option FSNode
  | [], _ => none
  | (name, node) :: rest, key => if name == key then some node else lookupFS rest key

/-- The lines of the `.gitignore` entry of a directory, when that entry is
a regular file (the source tests `gitignore_file.exists()` and then opens
it; the model only reads regular files — a `.gitignore` that is itself a
directory would make the `open` raise, a case no claim exercises). -/
def gitignoreLinesIn (cs : List (String × FSNode)) : Option (List (List Char)) :=
  match lookupFS cs (".gitignore") with
  | some n =>
    match resolve1 n with
    | FSNode.file _ lines => some lines
    | _ => none
  | none => none

/-- The engine options consulted during enumeration
(`options.get("recursive")`, `options.get("gitignore")`,
`options.get("ignore-empty-files")`). -/
structure Opts where
  recursive : Bool
  gitignore : Bool
  ignoreEmptyFiles : Bool
deriving DecidableEq

/-- One hashing job, i.e. one aligned entry of the `base_paths`, `paths`
and `sizes` lists built by `_create_jobs`. -/
structure Job where
  base : List String
  path : List String
  size : Nat
deriving DecidableEq

/-- The enumeration state: the job lists, the queue handler, the shared
total `CalculateHashes._total_bytes`, and an instrumentation clock counting
the reads of the cancellation flag (one per visitor entry), so that a flag
set partway through a run can be expressed as a schedule. -/
structure EnumState where
  jobs : List Job
  q : QState
  totalBytes : Nat
  clock : Nat
deriving DecidableEq

/-- `list.copy()` followed by `parse_gitignore(file, extend=local_rules)`
whose return value the caller discards: a nonempty list receives the file's
rules in place; an empty list makes `extend or [...]` build a fresh seeded
list that is then lost, so the empty list stays empty. -/
def parseExtendInPlace (l : List IgnoreRule) (lines : List (List Char))
    (parent : List String) : List IgnoreRule :=
  if l.isEmpty then l else l ++ parseLines lines parent

/-- The `local_rules` a directory passes to its children
(`_process_path_n_rules`, directory branch): without the gitignore option
the inherited rules are dropped; with it they are copied and extended in
place by the directory's own `.gitignore`, when one exists. -/
def localRulesOf (opts : Opts) (rules : List IgnoreRule) (cs : List (String × FSNode))
    (curPath : List String) : List IgnoreRule :=
  if opts.gitignore then
    match gitignoreLinesIn cs with
    | some lines => parseExtendInPlace rules lines curPath
    | none => rules
  else []

/-- The `for sub_path in current_path.iterdir()` loop shape: visit every
named child of `curPath` in order with the visitor `f`, threading the
state. -/
def foldChildren (f : List String → FSNode → EnumState → EnumState)
    (curPath : List String) : List (String × FSNode) → EnumState → EnumState
  | [], st => st
  | (name, child) :: rest, st =>
    foldChildren f curPath rest (f (curPath ++ [name]) child st)

/-- `CalculateHashes._process_path_n_rules`: poll the cancellation flag and
return at once when set; report symbolic links; skip ignored paths
silently; for a regular file apply the empty-file policy or append a job
and accumulate the size; for a directory (when recursive) derive the local
rules and visit every child.  The final `else` branch of the source
re-stats the path, which for an existing special file succeeds and emits
nothing.  The recursion over the filesystem tree is expressed with an
explicit `fuel` bound, consumed once per directory level, so the
definition is structurally recursive and kernel-computable; any fuel
exceeding the tree's depth yields the source's behavior, and the claims
below hold for every fuel value. -/
def processPathNRules : Nat → List String → List String → FSNode →
    List IgnoreRule → Opts → (Nat → Bool) → EnumState → EnumState
  | 0, _, _, _, _, _, _, st => st
  | fuel + 1, basePath, curPath, node, rules, opts, cancel, st =>
    if cancel st.clock then { st with clock := st.clock + 1 }
    else
      let st1 : EnumState := { st with clock := st.clock + 1 }
      if fsIsSymlink node then
        { st1 with q := updateError basePath curPath ("Symbolic links are not supported") st1.q }
      else if isIgnored { segs := curPath, isFile := fsIsFile node } rules then st1
      else
        match node with
        | FSNode.file size _ =>
          if size = 0 then
            if !opts.ignoreEmptyFiles then
              { st1 with q := updateError basePath curPath ("File is empty") st1.q }
            else st1
          else
            { st1 with
              totalBytes := st1.totalBytes + size
              jobs := st1.jobs ++ [{ base := basePath, path := curPath, size := size }] }
        | FSNode.dir cs =>
          if opts.recursive then
            foldChildren
              (fun p c s =>
                processPathNRules fuel basePath p c (localRulesOf opts rules cs curPath)
                  opts cancel s)
              curPath cs st1
          else st1
        | FSNode.symlink _ => st1

/-- The directory branch's child loop with its visitor instantiated: a
named form of the `foldChildren` call made by `processPathNRules`. -/
def processDirChildren (fuel : Nat) (basePath curPath : List String)
    (cs : List (String × FSNode)) (rules : List IgnoreRule) (opts : Opts)
    (cancel : Nat → Bool) (st : EnumState) : EnumState :=
  foldChildren
    (fun p c s => processPathNRules fuel basePath p c rules opts cancel s)
    curPath cs st

/-- The root-directory child loop of `_create_jobs`: children matching the
root's own ignore rules are skipped before the visitor is called. -/
def rootChildren (fuel : Nat) (basePath rootPath : List String)
    (cs : List (String × FSNode)) (rules : List IgnoreRule) (opts : Opts)
    (cancel : Nat → Bool) (st : EnumState) : EnumState :=
  match cs with
  | [] => st
  | (name, child) :: rest =>
    let st2 :=
      if isIgnored { segs := rootPath ++ [name], isFile := fsIsFile child } rules then st
      else processPathNRules fuel basePath (rootPath ++ [name]) child rules opts cancel st
    rootChildren fuel basePath rootPath rest rules opts cancel st2

/-- One root entry handed to the engine: the display base path, the root's
segment list, and what the filesystem holds there (`none` when nothing
does). -/
structure RootSpec where
  base : List String
  segs : List String
  node : Option FSNode

/-- The `ignore_rules` a directory root gives its immediate children:
empty unless the gitignore option is set and the root holds a `.gitignore`
file, in which case `parse_gitignore` is called with no `extend`. -/
def rootRulesOf (opts : Opts) (n : FSNode) (rootPath : List String) : List IgnoreRule :=
  if opts.gitignore then
    match gitignoreLinesIn (fsChildren n) with
    | some lines => freshParse lines rootPath
    | none => []
  else []

/-- The body of the `_create_jobs` loop for one root: report missing
paths; enter a directory root (loading its `.gitignore` when the option is
set, then iterating children with the early skip); hand a file root to the
visitor with no rules; do nothing for other existing nodes.  Note that the
root itself is never checked for being a symbolic link: `is_dir` and
`is_file` resolve links. -/
def rootStep (fuel : Nat) (opts : Opts) (cancel : Nat → Bool) (st : EnumState)
    (r : RootSpec) : EnumState :=
  match r.node with
  | none => { st with q := updateError r.base r.segs ("File or directory not found") st.q }
  | some n =>
    if !fsExists n then
      { st with q := updateError r.base r.segs ("File or directory not found") st.q }
    else if fsIsDir n then
      rootChildren fuel r.base r.segs (fsChildren n) (rootRulesOf opts n r.segs) opts cancel st
    else if fsIsFile n then processPathNRules fuel r.base r.segs n [] opts cancel st
    else st

/-- `CalculateHashes._create_jobs`: iterate the roots with fresh job lists
and a fresh byte total, then, when no job was produced, submit a full
progress update and an advisory toast. -/
def createJobs (fuel : Nat) (roots : List RootSpec) (opts : Opts) (cancel : Nat → Bool)
    (q0 : QState) (clock0 : Nat) : EnumState :=
  let st := roots.foldl (rootStep fuel opts cancel)
    { jobs := [], q := q0, totalBytes := 0, clock := clock0 }
  if st.jobs.isEmpty then
    { st with q := updateToast ("❌ Zero bytes. No files were hashed.") (updateProgress 1 st.q) }
  else st

/-- Membership of a named child in a directory listing. -/
def dirMem (name : String) (node : FSNode) (cs : List (String × FSNode)) : Prop :=
  (name, node) ∈ cs

/-- `Visits opts segs n rules segs2 n2 rules2` holds when the visitor,
called on path `segs` holding `n` with rules `rules` in force, can reach a
(possibly nested) visitor call on path `segs2` holding `n2` with rules
`rules2` in force: either the call itself, or, through a directory child,
with the local rules the directory derives for its children. -/
inductive Visits (opts : Opts) :
    List String → FSNode → List IgnoreRule → List String → FSNode → List IgnoreRule → Prop
  | refl (segs : List String) (n : FSNode) (rules : List IgnoreRule) :
      Visits opts segs n rules segs n rules
  | child (segs : List String) (cs : List (String × FSNode)) (rules : List IgnoreRule) (name : String)
      (c : FSNode) (segs2 : List String) (n2 : FSNode) (rules2 : List IgnoreRule) :
      opts.recursive = true →
      dirMem name c cs →
      Visits opts (segs ++ [name]) c (localRulesOf opts rules cs segs) segs2 n2 rules2 →
      Visits opts segs (FSNode.dir cs) rules segs2 n2 rules2

/-- `VisitsFrom roots opts base segs2 n2 rules2` holds when the
`_create_jobs` loop over `roots` leads to a visitor call on path `segs2`
holding `n2` with rules `rules2` in force and display base `base`: through
a file root (visited with no rules), or through a child of a directory
root that survives the early ignore skip. -/
inductive VisitsFrom (roots : List RootSpec) (opts : Opts) :
    List String → List String → FSNode → List IgnoreRule → Prop
  | fromFileRoot (r : RootSpec) (n : FSNode) (segs2 : List String) (n2 : FSNode)
      (rules2 : List IgnoreRule) :
      r ∈ roots → r.node = some n → fsExists n = true → fsIsDir n = false →
      fsIsFile n = true →
      Visits opts r.segs n [] segs2 n2 rules2 →
      VisitsFrom roots opts r.base segs2 n2 rules2
  | fromDirRoot (r : RootSpec) (n : FSNode) (name : String) (c : FSNode)
      (segs2 : List String) (n2 : FSNode) (rules2 : List IgnoreRule) :
      r ∈ roots → r.node = some n → fsExists n = true → fsIsDir n = true →
      dirMem name c (fsChildren n) →
      isIgnored { segs := r.segs ++ [name], isFile := fsIsFile c } (rootRulesOf opts n r.segs) = false →
      Visits opts (r.segs ++ [name]) c (rootRulesOf opts n r.segs) segs2 n2 rules2 →
      VisitsFrom roots opts r.base segs2 n2 rules2

/-- What C9 asserts of one job produced by a visitor call on `node` at
`curPath` with `rules` in force: positive size, the caller's display base,
and a visit (in the sense of `Visits`) to a regular file of exactly the
job's size that the rules in force there do not ignore. -/
def JobOk (opts : Opts) (basePath curPath : List String) (node : FSNode)
    (rules : List IgnoreRule) (j : Job) : Prop :=
  0 < j.size ∧ j.base = basePath ∧
    ∃ (n2 : FSNode) (rules2 : List IgnoreRule) (lines2 : List (List Char)),
      Visits opts curPath node rules j.path n2 rules2 ∧
      n2 = FSNode.file j.size lines2 ∧
      isIgnored { segs := j.path, isFile := true } rules2 = false

/-- The soundness statement for the visitor at a given fuel: every call
appends a batch of jobs, accumulates exactly their sizes into the byte
total, and every appended job satisfies `JobOk`. -/
def PathSound (fuel : Nat) (opts : Opts) (cancel : Nat → Bool) : Prop :=
  ∀ (basePath curPath : List String) (node : FSNode) (rules : List IgnoreRule)
    (st : EnumState),
    ∃ new : List Job,
      (processPathNRules fuel basePath curPath node rules opts cancel st).jobs =
        st.jobs ++ new ∧
      (processPathNRules fuel basePath curPath node rules opts cancel st).totalBytes =
        st.totalBytes + (new.map Job.size).sum ∧
      ∀ j ∈ new, JobOk opts basePath curPath node rules j

/-- What C9 asserts of one job produced through one root entry `r`. -/
def RootJobOk (opts : Opts) (r : RootSpec) (j : Job) : Prop :=
  0 < j.size ∧ j.base = r.base ∧
    ∃ (n2 : FSNode) (rules2 : List IgnoreRule) (lines2 : List (List Char)),
      VisitsFrom [r] opts j.base j.path n2 rules2 ∧
      n2 = FSNode.file j.size lines2 ∧
      isIgnored { segs := j.path, isFile := true } rules2 = false

theorem matchHere_intro (toks : List GTok) (a b : List Char)
    (hm : tokMatcher toks a = true) (he : endOk b = true) :
    matchHere toks (a ++ b) = true := by
  unfold matchHere
  rw [List.any_eq_true]
  refine ⟨a.length, List.mem_range.mpr ?_, ?_⟩
  · simp only [List.length_append]
    omega
  · rw [List.take_left, List.drop_left, hm, he]
    rfl

theorem searchToks_start (toks : List GTok) (v : List Char)
    (hm : matchHere toks v = true) : searchToks false toks v = true := by
  unfold searchToks
  rw [if_neg (by simp), List.any_eq_true]
  exact ⟨0, List.mem_range.mpr (by omega), by simpa using hm⟩

theorem searchToks_mid (toks : List GTok) (u v : List Char)
    (hm : matchHere toks v = true) : searchToks false toks (u ++ '/' :: v) = true := by
  unfold searchToks
  rw [if_neg (by simp), List.any_eq_true]
  refine ⟨u.length + 1, List.mem_range.mpr (by simp [List.length_append]), ?_⟩
  have h1 : (u ++ '/' :: v).drop u.length = '/' :: v := List.drop_left u ('/' :: v)
  have h2 : (u ++ '/' :: v).drop (u.length + 1) = v := by
    have : u ++ '/' :: v = (u ++ ['/']) ++ v := by simp
    rw [this]
    have hl : (u ++ ['/']).length = u.length + 1 := by simp
    rw [← hl]
    exact List.drop_left (u ++ ['/']) v
  simp only [Nat.add_sub_cancel, h1, h2]
  simp [hm]

theorem renderSegs_append (p : List String) (s : String) (hp : p ≠ []) :
    renderSegs (p ++ [s]) = renderSegs p ++ '/' :: s.data := by
  induction p with
  | nil => exact absurd rfl hp
  | cons x rest ih =>
    cases rest with
    | nil => rfl
    | cons y t =>
      have h1 : renderSegs ((x :: y :: t) ++ [s]) =
          x.data ++ '/' :: renderSegs ((y :: t) ++ [s]) := rfl
      have h2 : renderSegs (x :: y :: t) = x.data ++ '/' :: renderSegs (y :: t) := rfl
      rw [h1, ih (by simp), h2]
      simp

theorem relChars_append (B rest : List String) (h : rest ≠ []) :
    relChars B (B ++ rest) = renderSegs rest := by
  unfold relChars
  rw [List.drop_left]
  simp [h]

theorem searchToks_last_seg (toks : List GTok) (p : List String) (w : String)
    (hm : matchHere toks w.data = true) :
    searchToks false toks (renderSegs (p ++ [w])) = true := by
  cases p with
  | nil => simpa [renderSegs] using searchToks_start toks w.data hm
  | cons x rest =>
    rw [renderSegs_append (x :: rest) w (by simp)]
    exact searchToks_mid toks _ _ hm

theorem mk_star_log_eq (B : List String) :
    mkIgnoreRule ("*.log".data) B =
      { negation := false, directory_only := false, anchored := false,
        toks := [GTok.starNS, GTok.lit '.', GTok.lit 'l', GTok.lit 'o', GTok.lit 'g'],
        base_path := B } := rfl

theorem mk_keep_log_eq (B : List String) :
    mkIgnoreRule ("!keep.log".data) B =
      { negation := true, directory_only := false, anchored := false,
        toks := [GTok.lit 'k', GTok.lit 'e', GTok.lit 'e', GTok.lit 'p', GTok.lit '.',
                 GTok.lit 'l', GTok.lit 'o', GTok.lit 'g'],
        base_path := B } := rfl

theorem mk_git_eq (B : List String) :
    mkIgnoreRule (".git/".data) B =
      { negation := false, directory_only := true, anchored := false,
        toks := [GTok.lit '.', GTok.lit 'g', GTok.lit 'i', GTok.lit 't'],
        base_path := B } := rfl

theorem mk_build_eq (B : List String) :
    mkIgnoreRule ("build/".data) B =
      { negation := false, directory_only := true, anchored := false,
        toks := [GTok.lit 'b', GTok.lit 'u', GTok.lit 'i', GTok.lit 'l', GTok.lit 'd'],
        base_path := B } := rfl

theorem isIgnoredRev_eq_find (p : PEntry) (l : List IgnoreRule) :
    isIgnoredRev p l = (((l.find? (structMatch p)).map (fun r => !r.negation)).getD false) := by
  induction l with
  | nil => rfl
  | cons r rest ih =>
    by_cases h1 : r.matchPath p = true
    · simp [isIgnoredRev, h1, List.find?, structMatch]
    · rw [Bool.not_eq_true] at h1
      by_cases h2 : (r.directory_only &&
          (parentsOf p.segs).any
            (fun par => r.base_path.isPrefixOf par &&
              r.matchPath { segs := par, isFile := false })) = true
      · simp [isIgnoredRev, h1, h2, List.find?, structMatch]
      · rw [Bool.not_eq_true] at h2
        simp [isIgnoredRev, h1, h2, List.find?, structMatch, ih]

/-- C1 (counterexample): the claim says `is_ignored` is true for every
file named `a.log`; but for the file `base/keep.log/a.log` — whose parent
directory is named `keep.log` — the negation rule compiled from
`!keep.log` matches the relative path `keep.log/a.log` (its suffix accepts
a separator), so the reverse scan returns false. -/
theorem c1_counterexample :
    isIgnored { segs := ["base", "keep.log", "a.log"], isFile := true }
      ((parseGitignore ["*.log".data, "!keep.log".data] ["base"] none).1) = false := by decide

/-- C1 (amended): for the IgnoreSet parsed from the lines `*.log` and
`!keep.log`, every file named `a.log` that the `!keep.log` rule does not
structurally match is ignored, and every file named `keep.log` is not
ignored; in general `is_ignored` scans the rules in reverse insertion
order and returns the negation of the first structurally matching rule's
negation flag, and false when no rule matches. -/
theorem c1_amended :
    (∀ B p : List String,
      (mkIgnoreRule ("!keep.log".data) B).matchPath
          { segs := B ++ p ++ ["a.log"], isFile := true } = false →
      isIgnored { segs := B ++ p ++ ["a.log"], isFile := true }
        ((parseGitignore ["*.log".data, "!keep.log".data] B none).1) = true) ∧
    (∀ B p : List String,
      isIgnored { segs := B ++ p ++ ["keep.log"], isFile := true }
        ((parseGitignore ["*.log".data, "!keep.log".data] B none).1) = false) ∧
    (∀ (pe : PEntry) (rules : List IgnoreRule),
      isIgnored pe rules =
        (((rules.reverse.find? (structMatch pe)).map (fun r => !r.negation)).getD false)) := by
  refine ⟨?_, ?_, ?_⟩
  · intro B p h
    have hr : (parseGitignore ["*.log".data, "!keep.log".data] B none).1 =
        [mkIgnoreRule (".git/".data) B, mkIgnoreRule ("*.log".data) B,
         mkIgnoreRule ("!keep.log".data) B] := rfl
    rw [hr]
    unfold isIgnored
    rw [show ([mkIgnoreRule (".git/".data) B, mkIgnoreRule ("*.log".data) B,
         mkIgnoreRule ("!keep.log".data) B] : List IgnoreRule).reverse =
        [mkIgnoreRule ("!keep.log".data) B, mkIgnoreRule ("*.log".data) B,
         mkIgnoreRule (".git/".data) B] from rfl]
    have hs : (mkIgnoreRule ("*.log".data) B).matchPath
        { segs := B ++ p ++ ["a.log"], isFile := true } = true := by
      show searchToks false
        [GTok.starNS, GTok.lit '.', GTok.lit 'l', GTok.lit 'o', GTok.lit 'g']
        (relChars B (B ++ p ++ ["a.log"])) = true
      rw [List.append_assoc, relChars_append B (p ++ ["a.log"]) (by simp)]
      exact searchToks_last_seg
        [GTok.starNS, GTok.lit '.', GTok.lit 'l', GTok.lit 'o', GTok.lit 'g']
        p ("a.log") (by decide)
    have hkd : (mkIgnoreRule ("!keep.log".data) B).directory_only = false := rfl
    have hsn : (mkIgnoreRule ("*.log".data) B).negation = false := rfl
    simp only [isIgnoredRev]
    rw [h, hkd, hs, hsn]
    simp
  · intro B p
    have hr : (parseGitignore ["*.log".data, "!keep.log".data] B none).1 =
        [mkIgnoreRule (".git/".data) B, mkIgnoreRule ("*.log".data) B,
         mkIgnoreRule ("!keep.log".data) B] := rfl
    rw [hr]
    unfold isIgnored
    rw [show ([mkIgnoreRule (".git/".data) B, mkIgnoreRule ("*.log".data) B,
         mkIgnoreRule ("!keep.log".data) B] : List IgnoreRule).reverse =
        [mkIgnoreRule ("!keep.log".data) B, mkIgnoreRule ("*.log".data) B,
         mkIgnoreRule (".git/".data) B] from rfl]
    have hk : (mkIgnoreRule ("!keep.log".data) B).matchPath
        { segs := B ++ p ++ ["keep.log"], isFile := true } = true := by
      show searchToks false
        [GTok.lit 'k', GTok.lit 'e', GTok.lit 'e', GTok.lit 'p', GTok.lit '.',
         GTok.lit 'l', GTok.lit 'o', GTok.lit 'g']
        (relChars B (B ++ p ++ ["keep.log"])) = true
      rw [List.append_assoc, relChars_append B (p ++ ["keep.log"]) (by simp)]
      exact searchToks_last_seg
        [GTok.lit 'k', GTok.lit 'e', GTok.lit 'e', GTok.lit 'p', GTok.lit '.',
         GTok.lit 'l', GTok.lit 'o', GTok.lit 'g']
        p ("keep.log") (by decide)
    have hkn : (mkIgnoreRule ("!keep.log".data) B).negation = true := rfl
    simp only [isIgnoredRev]
    rw [hk, hkn]
    simp
  · intro pe rules
    exact isIgnoredRev_eq_find pe rules.reverse

/-- C1 (witness): the amended first clause at the concrete file
`b/s/a.log`, with the hypothesis discharged by computation. -/
theorem c1_witness :
    ((mkIgnoreRule ("!keep.log".data) ["b"]).matchPath
        { segs := ["b"] ++ ["s"] ++ ["a.log"], isFile := true } = false) ∧
    isIgnored { segs := ["b"] ++ ["s"] ++ ["a.log"], isFile := true }
      ((parseGitignore ["*.log".data, "!keep.log".data] ["b"] none).1) = true :=
  ⟨by decide, c1_amended.1 ["b"] ["s"] (by decide)⟩

/-- C2 (counterexample): the claim quantifies over every IgnoreSet
containing the `build/` rule; with a later rule `!*` the reverse scan
hits the negation rule first and `B/build/f.txt` is not ignored. -/
theorem c2_counterexample :
    isIgnored { segs := ["B", "build", "f.txt"], isFile := true }
      [mkIgnoreRule ("build/".data) ["B"], mkIgnoreRule ("!*".data) ["B"]] = false := by decide

/-- C2 (amended): when the directory-only rule compiled from `build/` is
the last rule of the IgnoreSet (so the reverse scan reaches it first),
every regular file lying anywhere below a directory named `build` inside
the rule's base path is ignored: the rule does not match the file itself
(directory-only rules never match regular files) but matches the `build`
ancestor, which counts as a match for its descendants. -/
theorem c2_amended (rules : List IgnoreRule) (B p q : List String) (fname : String) :
    isIgnored { segs := B ++ p ++ ["build"] ++ q ++ [fname], isFile := true }
      (rules ++ [mkIgnoreRule ("build/".data) B]) = true := by
  unfold isIgnored
  rw [List.reverse_append]
  simp only [List.reverse_singleton, List.singleton_append]
  have hm : (mkIgnoreRule ("build/".data) B).matchPath
      { segs := B ++ p ++ ["build"] ++ q ++ [fname], isFile := true } = false := rfl
  have hany : (parentsOf (B ++ p ++ ["build"] ++ q ++ [fname])).any
      (fun par => (mkIgnoreRule ("build/".data) B).base_path.isPrefixOf par &&
        (mkIgnoreRule ("build/".data) B).matchPath { segs := par, isFile := false }) = true := by
    rw [List.any_eq_true]
    refine ⟨B ++ p ++ ["build"], ?_, ?_⟩
    · unfold parentsOf
      rw [List.mem_map]
      refine ⟨(B ++ p ++ ["build"]).length, List.mem_range.mpr ?_, ?_⟩
      · simp only [List.length_append, List.length_cons, List.length_nil]
        omega
      · have hsplit : B ++ p ++ ["build"] ++ q ++ [fname] =
            (B ++ p ++ ["build"]) ++ (q ++ [fname]) := by
          simp [List.append_assoc]
        rw [hsplit, List.take_left]
    · have hpre : (mkIgnoreRule ("build/".data) B).base_path.isPrefixOf
          (B ++ p ++ ["build"]) = true := by
        show B.isPrefixOf (B ++ p ++ ["build"]) = true
        rw [List.isPrefixOf_iff_prefix, List.append_assoc]
        exact List.prefix_append B (p ++ ["build"])
      have hmp : (mkIgnoreRule ("build/".data) B).matchPath
          { segs := B ++ p ++ ["build"], isFile := false } = true := by
        show searchToks false
          [GTok.lit 'b', GTok.lit 'u', GTok.lit 'i', GTok.lit 'l', GTok.lit 'd']
          (relChars B (B ++ p ++ ["build"])) = true
        rw [List.append_assoc, relChars_append B (p ++ ["build"]) (by simp)]
        exact searchToks_last_seg
          [GTok.lit 'b', GTok.lit 'u', GTok.lit 'i', GTok.lit 'l', GTok.lit 'd']
          p ("build") (by decide)
      rw [hpre, hmp]
      rfl
  have hbd : (mkIgnoreRule ("build/".data) B).directory_only = true := rfl
  have hbn : (mkIgnoreRule ("build/".data) B).negation = false := rfl
  simp only [isIgnoredRev]
  rw [hm, hbd, hany, hbn]
  simp

/-- C5 (counterexample): `parse_gitignore` called with a nonempty `extend`
list appends the parsed rules to that very list, so the caller's list is
mutated, contradicting the claim that the caller's `extend` list stays
unmodified. -/
theorem c5_counterexample :
    (parseGitignore ["*.log".data] ["b"] (some [mkIgnoreRule ("x".data) ["b"]])).2 ≠
      some [mkIgnoreRule ("x".data) ["b"]] := by decide

/-- C5 (amended): when `extend` is omitted — or supplied empty, since
Python evaluates `extend or [...]` — `parse_gitignore` returns a fresh
list seeded with the synthetic `.git/` directory-only rule rooted at the
source file's parent (a supplied empty list is left untouched); when
`extend` is a nonempty list the file's rules are appended to that very
list, which is also returned, so the caller's list is mutated.  The copy
is made by the caller instead: `_process_path_n_rules` copies the
inherited rules into `local_rules` before passing them as `extend`, so a
directory's children extend the copy and the parent's own rule list is
never modified — in the model, `localRulesOf` returns
`rules ++ parseLines lines curPath` while the parent continues to use
`rules`. -/
theorem c5_amended (lines : List (List Char)) (parent : List String) :
    (parseGitignore lines parent none =
      (mkIgnoreRule (".git/".data) parent :: parseLines lines parent, none)) ∧
    (parseGitignore lines parent (some []) =
      (mkIgnoreRule (".git/".data) parent :: parseLines lines parent, some [])) ∧
    (∀ l : List IgnoreRule, l ≠ [] →
      parseGitignore lines parent (some l) =
        (l ++ parseLines lines parent, some (l ++ parseLines lines parent))) ∧
    (∀ (opts : Opts) (rules : List IgnoreRule) (cs : List (String × FSNode))
       (curPath : List String),
      opts.gitignore = true → rules ≠ [] → gitignoreLinesIn cs = some lines →
      localRulesOf opts rules cs curPath = rules ++ parseLines lines curPath) := by
  refine ⟨rfl, rfl, ?_, ?_⟩
  · intro l hl
    have hne : l.isEmpty = false := by
      cases l with
      | nil => exact absurd rfl hl
      | cons a t => rfl
    simp [parseGitignore, hne]
  · intro opts rules cs curPath hg hr hlines
    unfold localRulesOf
    rw [hg, hlines]
    simp only [if_pos]
    unfold parseExtendInPlace
    rw [if_neg (by simpa using hr)]

/-- C5 (witness): the amended nonempty-extend clause at a concrete
one-rule extend list. -/
theorem c5_witness :
    (([mkIgnoreRule ("x".data) ["b"]] : List IgnoreRule) ≠ []) ∧
    parseGitignore ["*.log".data] ["b"] (some [mkIgnoreRule ("x".data) ["b"]]) =
      ([mkIgnoreRule ("x".data) ["b"]] ++ parseLines ["*.log".data] ["b"],
       some ([mkIgnoreRule ("x".data) ["b"]] ++ parseLines ["*.log".data] ["b"])) :=
  ⟨by decide, (c5_amended ["*.log".data] ["b"]).2.2.1 [mkIgnoreRule ("x".data) ["b"]] (by decide)⟩

/-- C10: `QueueUpdateHandler.update_progress` enqueues a progress message
exactly when the incremented call counter reaches 5 or the fraction equals
1; a fraction of exactly 1 is always enqueued regardless of the counter,
the counter resets to 0 on every enqueue, and otherwise the message is
dropped and only the counter advances. -/
theorem c10_throttle (p : ℚ) (q : QState) :
    ((updateProgress p q).msgs = q.msgs ++ [Msg.progress p] ↔ (q.c + 1 = 5 ∨ p = 1)) ∧
    (p = 1 → (updateProgress p q).msgs = q.msgs ++ [Msg.progress p] ∧
      (updateProgress p q).c = 0) ∧
    (¬(q.c + 1 = 5 ∨ p = 1) → updateProgress p q = { c := q.c + 1, msgs := q.msgs }) ∧
    ((q.c + 1 = 5 ∨ p = 1) → (updateProgress p q).c = 0) := by
  have he : updateProgress p q =
      if q.c + 1 = 5 ∨ p = 1 then { c := 0, msgs := q.msgs ++ [Msg.progress p] }
      else { c := q.c + 1, msgs := q.msgs } := rfl
  by_cases h : q.c + 1 = 5 ∨ p = 1
  · rw [he, if_pos h]
    simp [h]
    constructor
    · rcases h with h | h
      · exact Or.inl (by omega)
      · exact Or.inr h
    · intro hc
      rcases h with h | h
      · exact absurd (by omega) hc
      · exact h
  · rw [he, if_neg h]
    have hp : p ≠ 1 := fun hp2 => h (Or.inr hp2)
    have hc : q.c + 1 ≠ 5 := fun hh => h (Or.inl hh)
    simp [h, hp, List.self_eq_append_right]
    omega

/-- C10 (witness): a call with fraction exactly 1 and a mid-cycle counter
still enqueues and resets the counter. -/
theorem c10_witness :
    (updateProgress 1 { c := 2, msgs := [] }).msgs = [] ++ [Msg.progress 1] ∧
    (updateProgress 1 { c := 2, msgs := [] }).c = 0 :=
  (c10_throttle 1 { c := 2, msgs := [] }).2.1 rfl

theorem hashChunks_nocancel (totalBytes : ℤ) (cs : List ℤ) :
    ∀ (i : Nat) (st : HState),
      hashChunks (fun _ => false) totalBytes cs i st = (chunksNC totalBytes cs st, true) := by
  induction cs with
  | nil => intro i st; rfl
  | cons n rest ih =>
    intro i st
    simp only [hashChunks, Bool.false_eq_true, if_false]
    rw [ih]
    rfl

theorem engineProgress_bytesRead (totalBytes : ℤ) (st : HState) :
    (engineProgress totalBytes st).bytesRead = st.bytesRead := rfl

theorem chunksNC_bytesRead (totalBytes : ℤ) (cs : List ℤ) :
    ∀ st : HState, (chunksNC totalBytes cs st).bytesRead = st.bytesRead + cs.sum := by
  induction cs with
  | nil => intro st; simp [chunksNC]
  | cons n rest ih =>
    intro st
    have h1 : chunksNC totalBytes (n :: rest) st =
        chunksNC totalBytes rest (engineProgress totalBytes (addBytesRead n st)) := rfl
    rw [h1, ih]
    simp only [engineProgress_bytesRead, List.sum_cons]
    show st.bytesRead + n + rest.sum = st.bytesRead + (n + rest.sum)
    omega

theorem updateProgress_msgs (p : ℚ) (q : QState) :
    ∃ e, (updateProgress p q).msgs = q.msgs ++ e ∧
      (e = [] ∨ e = [Msg.progress p]) := by
  have he : updateProgress p q =
      if q.c + 1 = 5 ∨ p = 1 then { c := 0, msgs := q.msgs ++ [Msg.progress p] }
      else { c := q.c + 1, msgs := q.msgs } := rfl
  by_cases h : q.c + 1 = 5 ∨ p = 1
  · exact ⟨[Msg.progress p], by rw [he, if_pos h], Or.inr rfl⟩
  · exact ⟨[], by rw [he, if_neg h]; simp, Or.inl rfl⟩

theorem mem_progress_of (e : List Msg) (p : ℚ) (h : e = [] ∨ e = [Msg.progress p])
    (m : Msg) (hm : m ∈ e) : m = Msg.progress p := by
  rcases h with rfl | rfl
  · cases hm
  · simpa using hm

theorem chunksNC_msgs (totalBytes : ℤ) (cs : List ℤ) :
    ∀ st : HState, ∃ e, (chunksNC totalBytes cs st).q.msgs = st.q.msgs ++ e ∧
      ∀ m ∈ e, ∃ pv, m = Msg.progress pv := by
  induction cs with
  | nil => intro st; exact ⟨[], by simp [chunksNC], by simp⟩
  | cons n rest ih =>
    intro st
    have h1 : chunksNC totalBytes (n :: rest) st =
        chunksNC totalBytes rest (engineProgress totalBytes (addBytesRead n st)) := rfl
    obtain ⟨e0, he0, hp0⟩ :=
      updateProgress_msgs (if 0 < totalBytes then
        min (((addBytesRead n st).bytesRead : ℚ) / (totalBytes : ℚ)) 1 else 1)
        (addBytesRead n st).q
    obtain ⟨e1, he1, hp1⟩ := ih (engineProgress totalBytes (addBytesRead n st))
    refine ⟨e0 ++ e1, ?_, ?_⟩
    · rw [h1, he1]
      have : (engineProgress totalBytes (addBytesRead n st)).q.msgs = st.q.msgs ++ e0 := he0
      rw [this, List.append_assoc]
    · intro m hm
      rcases List.mem_append.mp hm with hm | hm
      · exact ⟨_, mem_progress_of _ _ hp0 m hm⟩
      · exact hp1 m hm

/-- C3: cooperative cancellation.  (1) The enumeration visitor polls the
flag on entry to every (recursive) call and, once it reads true, returns
with no message, no job and no byte accumulated; since every nested visit
performs the same check, nothing is emitted after the flag is observed,
and the already-enqueued messages are untouched.  (2) A hash task whose
top-of-task check reads true returns with the state unchanged.  (3) In the
chunk loop, when the flag first reads true at the check following some
chunk, the task returns at once: that chunk's bytes are counted but its
progress update, all later chunks, and the final result or error message
are all skipped, while the messages from the earlier chunks remain. -/
theorem c3_cancellation :
    (∀ (fuel : Nat) (basePath curPath : List String) (node : FSNode) (rules : List IgnoreRule)
       (opts : Opts) (cancel : Nat → Bool) (st : EnumState),
       cancel st.clock = true →
       processPathNRules (fuel + 1) basePath curPath node rules opts cancel st =
         { st with clock := st.clock + 1 }) ∧
    (∀ (cancel : Nat → Bool) (totalBytes : ℤ) (basePath file : List String)
       (digestHex algo : String) (fileSize : ℤ) (chunks : List ℤ) (fails : Bool)
       (emsg : String) (st : HState),
       cancel 0 = true →
       hashTask cancel totalBytes basePath file digestHex algo fileSize chunks fails emsg st = st) ∧
    (∀ (cancel : Nat → Bool) (totalBytes : ℤ) (cs1 cs2 : List ℤ) (n : ℤ) (i : Nat) (st : HState),
       (∀ j, j < cs1.length → cancel (i + j) = false) →
       cancel (i + cs1.length) = true →
       hashChunks cancel totalBytes (cs1 ++ n :: cs2) i st =
         (addBytesRead n (chunksNC totalBytes cs1 st), false)) := by
  refine ⟨?_, ?_, ?_⟩
  · intro fuel basePath curPath node rules opts cancel st h
    simp only [processPathNRules]
    rw [h]
    simp
  · intro cancel totalBytes basePath file digestHex algo fileSize chunks fails emsg st h
    simp only [hashTask]
    rw [h]
    simp
  · intro cancel totalBytes cs1
    induction cs1 with
    | nil =>
      intro cs2 n i st h1 h2
      have hc : cancel i = true := by simpa using h2
      simp only [List.nil_append, hashChunks]
      rw [hc]
      simp [chunksNC]
    | cons c rest ih =>
      intro cs2 n i st h1 h2
      have hc : cancel i = false := by simpa using h1 0 (by simp)
      simp only [List.cons_append, hashChunks]
      rw [hc]
      simp only [Bool.false_eq_true, if_false]
      have hnext : hashChunks cancel totalBytes (rest ++ n :: cs2) (i + 1)
          (engineProgress totalBytes (addBytesRead c st)) =
          (addBytesRead n (chunksNC totalBytes rest
            (engineProgress totalBytes (addBytesRead c st))), false) := by
        refine ih cs2 n (i + 1) _ ?_ ?_
        · intro j hj
          have h3 := h1 (j + 1) (by simp only [List.length_cons]; omega)
          have h4 : i + (j + 1) = i + 1 + j := by omega
          rwa [h4] at h3
        · have h3 : i + (c :: rest).length = i + 1 + rest.length := by
            simp only [List.length_cons]; omega
          rwa [h3] at h2
      show hashChunks cancel totalBytes (rest ++ n :: cs2) (i + 1)
          (engineProgress totalBytes (addBytesRead c st)) =
        (addBytesRead n (chunksNC totalBytes (c :: rest) st), false)
      rw [hnext]
      rfl

/-- C3 (witness): the three cancellation facts at concrete inputs — a
visitor call with the flag set, a hash task whose top check reads true,
and a three-chunk task whose flag first reads true after the second
chunk. -/
theorem c3_witness :
    (processPathNRules 1 ["b"] ["b", "f"] (FSNode.file 1 []) []
        { recursive := true, gitignore := true, ignoreEmptyFiles := false } (fun _ => true)
        { jobs := [], q := { c := 0, msgs := [] }, totalBytes := 0, clock := 0 } =
      { jobs := [], q := { c := 0, msgs := [] }, totalBytes := 0, clock := 1 }) ∧
    (hashTask (fun _ => true) 10 ["b"] ["b", "f"] ("d0") ("sha256") 5 [5] false ("e")
        { bytesRead := 0, q := { c := 0, msgs := [] } } =
      { bytesRead := 0, q := { c := 0, msgs := [] } }) ∧
    ((∀ j, j < ([(5 : ℤ)]).length → (fun k => decide (2 ≤ k)) (1 + j) = false) ∧
     (fun k => decide (2 ≤ k)) (1 + ([(5 : ℤ)]).length) = true ∧
     hashChunks (fun k => decide (2 ≤ k)) 21 ([5] ++ 7 :: [9]) 1
        { bytesRead := 0, q := { c := 0, msgs := [] } } =
       (addBytesRead 7 (chunksNC 21 [5] { bytesRead := 0, q := { c := 0, msgs := [] } }), false)) :=
  ⟨c3_cancellation.1 0 ["b"] ["b", "f"] (FSNode.file 1 []) []
      { recursive := true, gitignore := true, ignoreEmptyFiles := false } (fun _ => true)
      { jobs := [], q := { c := 0, msgs := [] }, totalBytes := 0, clock := 0 } (by decide),
   c3_cancellation.2.1 (fun _ => true) 10 ["b"] ["b", "f"] ("d0") ("sha256") 5 [5] false ("e")
      { bytesRead := 0, q := { c := 0, msgs := [] } } (by decide),
   by decide,
   by decide,
   c3_cancellation.2.2 (fun k => decide (2 ≤ k)) 21 [5] [9] 7 1
      { bytesRead := 0, q := { c := 0, msgs := [] } } (by decide) (by decide)⟩

/-- C8: a hash task that fails after reading and counting the bytes of
`chunks` (totalling k) out of an enumerated size s credits exactly s - k
more to the shared counter — so the task's net effect on the counter is
exactly s — submits one additional progress update, and enqueues an
`Error` carrying the exception's message; every message it appended is a
progress message or that final error, never a `Result`. -/
theorem c8_error_credit (totalBytes : ℤ) (basePath file : List String)
    (digestHex algo : String) (fileSize : ℤ) (chunks : List ℤ) (emsg : String) (st : HState) :
    (hashTask (fun _ => false) totalBytes basePath file digestHex algo fileSize chunks true
        emsg st).bytesRead = st.bytesRead + fileSize ∧
    (chunksNC totalBytes chunks st).bytesRead = st.bytesRead + chunks.sum ∧
    (hashTask (fun _ => false) totalBytes basePath file digestHex algo fileSize chunks true
        emsg st).q = updateError basePath file emsg
          (engineProgress totalBytes
            (addBytesRead (fileSize - chunks.sum) (chunksNC totalBytes chunks st))).q ∧
    (∀ m ∈ (hashTask (fun _ => false) totalBytes basePath file digestHex algo fileSize chunks true
        emsg st).q.msgs.drop st.q.msgs.length,
      (∃ pv, m = Msg.progress pv) ∨ m = Msg.error basePath file emsg) := by
  have hloop := hashChunks_nocancel totalBytes chunks 1 st
  have hte : hashTask (fun _ => false) totalBytes basePath file digestHex algo fileSize chunks true
      emsg st =
      { bytesRead := (engineProgress totalBytes
          (addBytesRead (fileSize - chunks.sum) (chunksNC totalBytes chunks st))).bytesRead,
        q := updateError basePath file emsg
          (engineProgress totalBytes
            (addBytesRead (fileSize - chunks.sum) (chunksNC totalBytes chunks st))).q } := by
    simp only [hashTask, Bool.false_eq_true, if_false, hloop, Bool.not_true, if_true]
  have hbytes := chunksNC_bytesRead totalBytes chunks st
  refine ⟨?_, hbytes, ?_, ?_⟩
  · rw [hte]
    show (engineProgress totalBytes
      (addBytesRead (fileSize - chunks.sum) (chunksNC totalBytes chunks st))).bytesRead =
      st.bytesRead + fileSize
    rw [engineProgress_bytesRead]
    show (chunksNC totalBytes chunks st).bytesRead + (fileSize - chunks.sum) =
      st.bytesRead + fileSize
    rw [hbytes]
    omega
  · rw [hte]
  · intro m hm
    rw [hte] at hm
    obtain ⟨e0, he0, hp0⟩ := chunksNC_msgs totalBytes chunks st
    obtain ⟨e1, he1, hp1⟩ :=
      updateProgress_msgs (if 0 < totalBytes then
        min (((addBytesRead (fileSize - chunks.sum) (chunksNC totalBytes chunks st)).bytesRead : ℚ)
          / (totalBytes : ℚ)) 1 else 1)
        (addBytesRead (fileSize - chunks.sum) (chunksNC totalBytes chunks st)).q
    have hq : (updateError basePath file emsg
        (engineProgress totalBytes
          (addBytesRead (fileSize - chunks.sum) (chunksNC totalBytes chunks st))).q).msgs =
        st.q.msgs ++ (e0 ++ (e1 ++ [Msg.error basePath file emsg])) := by
      show (engineProgress totalBytes
        (addBytesRead (fileSize - chunks.sum) (chunksNC totalBytes chunks st))).q.msgs ++
          [Msg.error basePath file emsg] = _
      have h2 : (engineProgress totalBytes
          (addBytesRead (fileSize - chunks.sum) (chunksNC totalBytes chunks st))).q.msgs =
          (chunksNC totalBytes chunks st).q.msgs ++ e1 := he1
      rw [h2, he0]
      simp [List.append_assoc]
    have hm2 : m ∈ List.drop st.q.msgs.length
        (st.q.msgs ++ (e0 ++ (e1 ++ [Msg.error basePath file emsg]))) := by
      rw [← hq]
      exact hm
    rw [List.drop_left] at hm2
    rcases List.mem_append.mp hm2 with hm3 | hm3
    · exact Or.inl (hp0 m hm3)
    · rcases List.mem_append.mp hm3 with hm4 | hm4
      · exact Or.inl ⟨_, mem_progress_of _ _ hp1 m hm4⟩
      · exact Or.inr (by simpa using hm4)

/-- C8 (witness): a task with one 2-byte chunk failing against an
enumerated size 5: the counter nets +5, one extra progress update is
submitted and the error is the last message. -/
theorem c8_witness :
    (hashTask (fun _ => false) 10 ["b"] ["b", "f"] ("d0") ("md5") 5 [2] true ("boom")
        { bytesRead := 0, q := { c := 0, msgs := [] } }).bytesRead = 0 + 5 ∧
    (hashTask (fun _ => false) 10 ["b"] ["b", "f"] ("d0") ("md5") 5 [2] true ("boom")
        { bytesRead := 0, q := { c := 0, msgs := [] } }).q =
      updateError ["b"] ["b", "f"] ("boom")
        (engineProgress 10 (addBytesRead (5 - ([(2 : ℤ)]).sum)
          (chunksNC 10 [2] { bytesRead := 0, q := { c := 0, msgs := [] } }))).q :=
  ⟨(c8_error_credit 10 ["b"] ["b", "f"] ("d0") ("md5") 5 [2] ("boom")
      { bytesRead := 0, q := { c := 0, msgs := [] } }).1,
   (c8_error_credit 10 ["b"] ["b", "f"] ("d0") ("md5") 5 [2] ("boom")
      { bytesRead := 0, q := { c := 0, msgs := [] } }).2.2.1⟩

/-- C6 (counterexample): a root path that is a symbolic link to a
directory is never symlink-checked by `_create_jobs` — `is_dir` resolves
the link — so it is descended into: its child is hashed as a job and no
error of any kind is emitted for the link. -/
theorem c6_counterexample :
    (createJobs 2
      [{ base := ["r"], segs := ["r"],
         node := some (FSNode.symlink (some (FSNode.dir
           [("f", FSNode.file 3 [])]))) }]
      { recursive := true, gitignore := false, ignoreEmptyFiles := false }
      (fun _ => false) { c := 0, msgs := [] } 0).jobs =
      [{ base := ["r"], path := ["r", "f"], size := 3 }] ∧
    (createJobs 2
      [{ base := ["r"], segs := ["r"],
         node := some (FSNode.symlink (some (FSNode.dir
           [("f", FSNode.file 3 [])]))) }]
      { recursive := true, gitignore := false, ignoreEmptyFiles := false }
      (fun _ => false) { c := 0, msgs := [] } 0).q.msgs = [] :=
  ⟨by decide, by decide⟩

/-- C6 (amended): every symbolic link reaching the per-path visitor — i.e.
every non-root symlink, and a root that is a link to a regular file, which
`_create_jobs` routes through the visitor — produces exactly the
"not supported" error and neither a job nor a descent, for every
combination of options; but root paths are never symlink-checked, and a
root that is a link to a directory is processed exactly as the target
directory itself (descended into, no error for the link). -/
theorem c6_amended :
    (∀ (fuel : Nat) (basePath curPath : List String) (t : Option FSNode)
       (rules : List IgnoreRule) (opts : Opts) (cancel : Nat → Bool) (st : EnumState),
       cancel st.clock = false →
       processPathNRules (fuel + 1) basePath curPath (FSNode.symlink t) rules opts cancel st =
         { st with clock := st.clock + 1,
                   q := updateError basePath curPath ("Symbolic links are not supported") st.q }) ∧
    (∀ (fuel : Nat) (opts : Opts) (cancel : Nat → Bool) (st : EnumState)
       (b segs : List String) (cs : List (String × FSNode)),
       rootStep fuel opts cancel st
           { base := b, segs := segs, node := some (FSNode.symlink (some (FSNode.dir cs))) } =
         rootStep fuel opts cancel st { base := b, segs := segs, node := some (FSNode.dir cs) }) := by
  constructor
  · intro fuel basePath curPath t rules opts cancel st h
    simp only [processPathNRules]
    rw [h]
    simp [fsIsSymlink]
  · intro fuel opts cancel st b segs cs
    rfl

/-- C6 (witness): the amended symlink-visitor clause at a dangling link
visited with the flag unset. -/
theorem c6_witness :
    ((fun _ => false) (0 : Nat) = false) ∧
    processPathNRules 1 ["b"] ["b", "ln"] (FSNode.symlink none) []
        { recursive := true, gitignore := true, ignoreEmptyFiles := true } (fun _ => false)
        { jobs := [], q := { c := 0, msgs := [] }, totalBytes := 0, clock := 0 } =
      { jobs := [],
        q := updateError ["b"] ["b", "ln"] ("Symbolic links are not supported")
          { c := 0, msgs := [] },
        totalBytes := 0, clock := 1 } :=
  ⟨by decide,
   c6_amended.1 0 ["b"] ["b", "ln"] none []
     { recursive := true, gitignore := true, ignoreEmptyFiles := true } (fun _ => false)
     { jobs := [], q := { c := 0, msgs := [] }, totalBytes := 0, clock := 0 } (by decide)⟩

/-- C7 (counterexample): a zero-byte file that the rules in force ignore
is skipped silently — the `is_ignored` check precedes the size check — so
with `ignoreEmptyFiles` false no "File is empty" error is emitted,
contradicting the claim for every encountered empty file. -/
theorem c7_counterexample :
    (processPathNRules 1 ["b"] ["b", "a.log"] (FSNode.file 0 [])
        [mkIgnoreRule ("*.log".data) ["b"]]
        { recursive := true, gitignore := true, ignoreEmptyFiles := false } (fun _ => false)
        { jobs := [], q := { c := 0, msgs := [] }, totalBytes := 0, clock := 0 }).q.msgs = [] ∧
    (processPathNRules 1 ["b"] ["b", "a.log"] (FSNode.file 0 [])
        [mkIgnoreRule ("*.log".data) ["b"]]
        { recursive := true, gitignore := true, ignoreEmptyFiles := false } (fun _ => false)
        { jobs := [], q := { c := 0, msgs := [] }, totalBytes := 0, clock := 0 }).jobs = [] :=
  ⟨by decide, by decide⟩

/-- C7 (amended): for every zero-byte regular file the visitor reaches
with the cancellation flag unset and that the rules in force do not
ignore: when `ignoreEmptyFiles` is false exactly one "File is empty" error
is emitted and no job is created; when it is true the visitor emits no
message of any kind and creates no job. -/
theorem c7_amended :
    (∀ (fuel : Nat) (basePath curPath : List String) (lines : List (List Char))
       (rules : List IgnoreRule) (opts : Opts) (cancel : Nat → Bool) (st : EnumState),
       cancel st.clock = false →
       isIgnored { segs := curPath, isFile := true } rules = false →
       opts.ignoreEmptyFiles = false →
       processPathNRules (fuel + 1) basePath curPath (FSNode.file 0 lines) rules opts cancel st =
         { st with clock := st.clock + 1,
                   q := updateError basePath curPath ("File is empty") st.q }) ∧
    (∀ (fuel : Nat) (basePath curPath : List String) (lines : List (List Char))
       (rules : List IgnoreRule) (opts : Opts) (cancel : Nat → Bool) (st : EnumState),
       cancel st.clock = false →
       isIgnored { segs := curPath, isFile := true } rules = false →
       opts.ignoreEmptyFiles = true →
       processPathNRules (fuel + 1) basePath curPath (FSNode.file 0 lines) rules opts cancel st =
         { st with clock := st.clock + 1 }) := by
  constructor
  · intro fuel basePath curPath lines rules opts cancel st hc hign hopt
    simp only [processPathNRules]
    rw [hc]
    simp only [Bool.false_eq_true, if_false, fsIsSymlink]
    rw [show fsIsFile (FSNode.file 0 lines) = true from rfl]
    rw [hign]
    simp [hopt]
  · intro fuel basePath curPath lines rules opts cancel st hc hign hopt
    simp only [processPathNRules]
    rw [hc]
    simp only [Bool.false_eq_true, if_false, fsIsSymlink]
    rw [show fsIsFile (FSNode.file 0 lines) = true from rfl]
    rw [hign]
    simp [hopt]

/-- C7 (witness): both amended clauses at a concrete non-ignored empty
file. -/
theorem c7_witness :
    (processPathNRules 1 ["b"] ["b", "e.txt"] (FSNode.file 0 []) []
        { recursive := true, gitignore := true, ignoreEmptyFiles := false } (fun _ => false)
        { jobs := [], q := { c := 0, msgs := [] }, totalBytes := 0, clock := 0 } =
      { jobs := [],
        q := updateError ["b"] ["b", "e.txt"] ("File is empty") { c := 0, msgs := [] },
        totalBytes := 0, clock := 1 }) ∧
    (processPathNRules 1 ["b"] ["b", "e.txt"] (FSNode.file 0 []) []
        { recursive := true, gitignore := true, ignoreEmptyFiles := true } (fun _ => false)
        { jobs := [], q := { c := 0, msgs := [] }, totalBytes := 0, clock := 0 } =
      { jobs := [], q := { c := 0, msgs := [] }, totalBytes := 0, clock := 1 }) :=
  ⟨c7_amended.1 0 ["b"] ["b", "e.txt"] [] []
     { recursive := true, gitignore := true, ignoreEmptyFiles := false } (fun _ => false)
     { jobs := [], q := { c := 0, msgs := [] }, totalBytes := 0, clock := 0 }
     (by decide) (by decide) (by decide),
   c7_amended.2 0 ["b"] ["b", "e.txt"] [] []
     { recursive := true, gitignore := true, ignoreEmptyFiles := true } (fun _ => false)
     { jobs := [], q := { c := 0, msgs := [] }, totalBytes := 0, clock := 0 }
     (by decide) (by decide) (by decide)⟩

theorem progressVals_append (a b : List Msg) :
    progressVals (a ++ b) = progressVals a ++ progressVals b := by
  induction a with
  | nil => rfl
  | cons m rest ih => cases m <;> simp [progressVals, ih]

theorem frac_le_one (t r : ℤ) : frac t r ≤ 1 := by
  unfold frac
  by_cases h : 0 < t
  · rw [if_pos h]
    exact min_le_right _ _
  · rw [if_neg h]

theorem frac_nonneg (t r : ℤ) (hr : 0 ≤ r) : 0 ≤ frac t r := by
  unfold frac
  by_cases h : 0 < t
  · rw [if_pos h]
    refine le_min (div_nonneg ?_ ?_) zero_le_one
    · exact_mod_cast hr
    · exact le_of_lt (by exact_mod_cast h)
  · rw [if_neg h]
    exact zero_le_one

theorem frac_mono (t r1 r2 : ℤ) (h : r1 ≤ r2) : frac t r1 ≤ frac t r2 := by
  unfold frac
  by_cases ht : 0 < t
  · rw [if_pos ht, if_pos ht]
    refine min_le_min ?_ le_rfl
    rw [div_le_div_iff_of_pos_right (by exact_mod_cast ht)]
    exact_mod_cast h
  · rw [if_neg ht, if_neg ht]

theorem frac_total (t : ℤ) (ht : 0 < t) : frac t t = 1 := by
  unfold frac
  rw [if_pos ht, div_self (by exact_mod_cast ne_of_gt ht)]
  simp

theorem frac_self (t : ℤ) : frac t t = 1 := by
  by_cases ht : 0 < t
  · exact frac_total t ht
  · unfold frac
    rw [if_neg ht]

theorem updateProgress_one (q : QState) :
    updateProgress 1 q = { c := 0, msgs := q.msgs ++ [Msg.progress 1] } := by
  have he : updateProgress 1 q =
      if q.c + 1 = 5 ∨ (1 : ℚ) = 1 then { c := 0, msgs := q.msgs ++ [Msg.progress 1] }
      else { c := q.c + 1, msgs := q.msgs } := rfl
  rw [he, if_pos (Or.inr rfl)]

theorem runF_append (t : ℤ) (a b : List FEvent) (st : FState) :
    runF t (a ++ b) st = runF t b (runF t a st) := by
  simp [runF]

theorem fAddSum_append (a b : List FEvent) :
    fAddSum (a ++ b) = fAddSum a + fAddSum b := by
  induction a with
  | nil => simp [fAddSum]
  | cons e rest ih =>
    cases e with
    | fadd v n =>
      show n + fAddSum (rest ++ b) = n + fAddSum rest + fAddSum b
      rw [ih]
      ring
    | fread v =>
      show fAddSum (rest ++ b) = fAddSum rest + fAddSum b
      exact ih
    | fput v =>
      show fAddSum (rest ++ b) = fAddSum rest + fAddSum b
      exact ih
    | fmsg v m =>
      show fAddSum (rest ++ b) = fAddSum rest + fAddSum b
      exact ih

theorem fAddSum_zero_of_no_fadd : ∀ l : List FEvent,
    (∀ v m, FEvent.fadd v m ∉ l) → fAddSum l = 0 := by
  intro l
  induction l with
  | nil => intro _; rfl
  | cons e rest ih =>
    intro h
    have hrest : ∀ v m, FEvent.fadd v m ∉ rest := by
      intro v m hm
      exact h v m (List.mem_cons.mpr (Or.inr hm))
    cases e with
    | fadd v n => exact absurd (List.mem_cons.mpr (Or.inl rfl)) (h v n)
    | fread v =>
      show fAddSum rest = 0
      exact ih hrest
    | fput v =>
      show fAddSum rest = 0
      exact ih hrest
    | fmsg v m =>
      show fAddSum rest = 0
      exact ih hrest

theorem runF_bytesRead (t : ℤ) : ∀ (evs : List FEvent) (st : FState),
    (runF t evs st).bytesRead = st.bytesRead + fAddSum evs := by
  intro evs
  induction evs with
  | nil =>
    intro st
    show st.bytesRead = st.bytesRead + 0
    ring
  | cons e rest ih =>
    intro st
    have h1 : runF t (e :: rest) st = runF t rest (fStep t st e) := rfl
    rw [h1, ih]
    cases e with
    | fadd v n =>
      show st.bytesRead + n + fAddSum rest = st.bytesRead + (n + fAddSum rest)
      ring
    | fread v => rfl
    | fput v => rfl
    | fmsg v m => rfl

theorem runF_msgs_extend (t : ℤ) : ∀ (evs : List FEvent) (st : FState) (m : Msg),
    m ∈ st.q.msgs → m ∈ (runF t evs st).q.msgs := by
  intro evs
  induction evs with
  | nil => intro st m hm; exact hm
  | cons e rest ih =>
    intro st m hm
    have h1 : runF t (e :: rest) st = runF t rest (fStep t st e) := rfl
    rw [h1]
    apply ih
    cases e with
    | fadd v n => exact hm
    | fread v => exact hm
    | fput v =>
      show m ∈ (updateProgress (st.snaps v) st.q).msgs
      obtain ⟨ee, hee, _⟩ := updateProgress_msgs (st.snaps v) st.q
      rw [hee]
      exact List.mem_append.mpr (Or.inl hm)
    | fmsg v m0 =>
      show m ∈ st.q.msgs ++ [m0]
      exact List.mem_append.mpr (Or.inl hm)

theorem runF_snaps_const (t : ℤ) (w : Nat) : ∀ (evs : List FEvent) (st : FState),
    FEvent.fread w ∉ evs → (runF t evs st).snaps w = st.snaps w := by
  intro evs
  induction evs with
  | nil => intro st _; rfl
  | cons e rest ih =>
    intro st hnin
    have hrest : FEvent.fread w ∉ rest := fun hm => hnin (List.mem_cons.mpr (Or.inr hm))
    have h1 : runF t (e :: rest) st = runF t rest (fStep t st e) := rfl
    rw [h1, ih (fStep t st e) hrest]
    cases e with
    | fadd v n => rfl
    | fread v =>
      show (if w = v then frac t st.bytesRead else st.snaps w) = st.snaps w
      rw [if_neg]
      intro hwv
      subst hwv
      exact hnin (List.mem_cons.mpr (Or.inl rfl))
    | fput v => rfl
    | fmsg v m => rfl

theorem runF_bounds (t : ℤ) : ∀ (evs : List FEvent) (st : FState),
    addsNonneg evs = true → msgsNonProgress evs = true →
    0 ≤ st.bytesRead → (∀ v, 0 ≤ st.snaps v ∧ st.snaps v ≤ 1) →
    (∀ pv ∈ progressVals st.q.msgs, 0 ≤ pv ∧ pv ≤ 1) →
    ∀ pv ∈ progressVals (runF t evs st).q.msgs, 0 ≤ pv ∧ pv ≤ 1 := by
  intro evs
  induction evs with
  | nil => intro st _ _ _ _ hq; exact hq
  | cons e rest ih =>
    intro st hnn hmp hb hs hq
    have h1 : runF t (e :: rest) st = runF t rest (fStep t st e) := rfl
    rw [h1]
    cases e with
    | fadd v n =>
      have hnn2 : (decide (0 ≤ n) && addsNonneg rest) = true := hnn
      rw [Bool.and_eq_true] at hnn2
      obtain ⟨hn1, hn2⟩ := hnn2
      have hn0 : 0 ≤ n := of_decide_eq_true hn1
      refine ih (fStep t st (FEvent.fadd v n)) hn2 hmp ?_ hs hq
      show 0 ≤ st.bytesRead + n
      omega
    | fread v =>
      refine ih (fStep t st (FEvent.fread v)) hnn hmp hb ?_ hq
      intro u
      by_cases hu : u = v
      · show 0 ≤ (if u = v then frac t st.bytesRead else st.snaps u) ∧
            (if u = v then frac t st.bytesRead else st.snaps u) ≤ 1
        rw [if_pos hu]
        exact ⟨frac_nonneg t st.bytesRead hb, frac_le_one t st.bytesRead⟩
      · show 0 ≤ (if u = v then frac t st.bytesRead else st.snaps u) ∧
            (if u = v then frac t st.bytesRead else st.snaps u) ≤ 1
        rw [if_neg hu]
        exact hs u
    | fput v =>
      refine ih (fStep t st (FEvent.fput v)) hnn hmp hb hs ?_
      intro pv hpv
      have hm : pv ∈ progressVals (updateProgress (st.snaps v) st.q).msgs := hpv
      obtain ⟨ee, hee, hcase⟩ := updateProgress_msgs (st.snaps v) st.q
      rw [hee, progressVals_append] at hm
      rcases List.mem_append.mp hm with h2 | h2
      · exact hq pv h2
      · rcases hcase with rfl | rfl
        · cases h2
        · have h4 : pv = st.snaps v := by simpa [progressVals] using h2
          rw [h4]
          exact hs v
    | fmsg v m0 =>
      cases m0 with
      | progress p => exact Bool.noConfusion hmp
      | result bp pth hv al =>
        refine ih (fStep t st (FEvent.fmsg v (Msg.result bp pth hv al))) hnn hmp hb hs ?_
        intro pv hpv
        have hm : pv ∈ progressVals (st.q.msgs ++ [Msg.result bp pth hv al]) := hpv
        rw [progressVals_append] at hm
        rcases List.mem_append.mp hm with h2 | h2
        · exact hq pv h2
        · cases h2
      | error bp pth msg =>
        refine ih (fStep t st (FEvent.fmsg v (Msg.error bp pth msg))) hnn hmp hb hs ?_
        intro pv hpv
        have hm : pv ∈ progressVals (st.q.msgs ++ [Msg.error bp pth msg]) := hpv
        rw [progressVals_append] at hm
        rcases List.mem_append.mp hm with h2 | h2
        · exact hq pv h2
        · cases h2
      | toast msg =>
        refine ih (fStep t st (FEvent.fmsg v (Msg.toast msg))) hnn hmp hb hs ?_
        intro pv hpv
        have hm : pv ∈ progressVals (st.q.msgs ++ [Msg.toast msg]) := hpv
        rw [progressVals_append] at hm
        rcases List.mem_append.mp hm with h2 | h2
        · exact hq pv h2
        · cases h2

theorem shape_head (b : List FEvent) (w : Nat) (n : ℤ)
    (hs : workerShape (FEvent.fadd w n :: b) = true) :
    ∃ v1 v2 b', b = FEvent.fread v1 :: FEvent.fput v2 :: b' := by
  rcases b with _ | ⟨e1, b1⟩
  · exact Bool.noConfusion hs
  rcases b1 with _ | ⟨e2, b'⟩
  · cases e1 <;> exact Bool.noConfusion hs
  cases e1 <;> cases e2 <;> first
    | exact Bool.noConfusion hs
    | exact ⟨_, _, b', rfl⟩

theorem shape_split : ∀ (k : Nat) (a b : List FEvent) (w : Nat) (n : ℤ),
    a.length ≤ k → workerShape (a ++ FEvent.fadd w n :: b) = true →
    ∃ v1 v2 b', b = FEvent.fread v1 :: FEvent.fput v2 :: b' := by
  intro k
  induction k with
  | zero =>
    intro a b w n hlen hs
    have ha : a = [] := List.length_eq_zero.mp (Nat.le_zero.mp hlen)
    subst ha
    exact shape_head b w n hs
  | succ k ih =>
    intro a b w n hlen hs
    rcases a with _ | ⟨e1, a1⟩
    · exact shape_head b w n hs
    rcases a1 with _ | ⟨e2, a2⟩
    · cases e1 <;> exact Bool.noConfusion hs
    rcases a2 with _ | ⟨e3, a3⟩
    · cases e1 <;> cases e2 <;> exact Bool.noConfusion hs
    cases e1 <;> cases e2 <;> cases e3 <;> first
      | exact Bool.noConfusion hs
      | exact ih a3 b w n (by simp at hlen ⊢; omega) hs

theorem shape_split_top (a b : List FEvent) (w : Nat) (n : ℤ)
    (hs : workerShape (a ++ FEvent.fadd w n :: b) = true) :
    ∃ v1 v2 b', b = FEvent.fread v1 :: FEvent.fput v2 :: b' :=
  shape_split a.length a b w n le_rfl hs

theorem filter_cons_split {α : Type _} (p : α → Bool) :
    ∀ (l : List α) (x : α) (xs : List α), l.filter p = x :: xs →
    ∃ u v, l = u ++ x :: v ∧ (∀ y ∈ u, ¬ p y = true) ∧ v.filter p = xs := by
  intro l
  induction l with
  | nil =>
    intro x xs h
    exact absurd h (by simp)
  | cons a l ih =>
    intro x xs h
    by_cases hp : p a = true
    · rw [List.filter_cons_of_pos hp] at h
      injection h with h1 h2
      subst h1
      exact ⟨[], l, rfl, by simp, h2⟩
    · rw [List.filter_cons_of_neg hp] at h
      obtain ⟨u, v, heq, hu, hv⟩ := ih x xs h
      refine ⟨a :: u, v, by rw [heq]; rfl, ?_, hv⟩
      intro y hy
      rcases List.mem_cons.mp hy with rfl | hy2
      · exact hp
      · exact hu y hy2

theorem exists_last_fadd : ∀ (evs : List FEvent), (∃ w n, FEvent.fadd w n ∈ evs) →
    ∃ l1 w n l2, evs = l1 ++ FEvent.fadd w n :: l2 ∧ ∀ v m, FEvent.fadd v m ∉ l2 := by
  intro evs
  induction evs using List.reverseRecOn with
  | nil =>
    rintro ⟨w, n, h⟩
    cases h
  | append_singleton l e ih =>
    rintro ⟨w, n, h⟩
    by_cases he : ∃ v m, e = FEvent.fadd v m
    · obtain ⟨v, m, rfl⟩ := he
      exact ⟨l, v, m, [], rfl, fun v' m' hm => by cases hm⟩
    · have h2 : FEvent.fadd w n ∈ l := by
        rcases List.mem_append.mp h with h3 | h3
        · exact h3
        · exact absurd ⟨w, n, (List.mem_singleton.mp h3).symm⟩ he
      obtain ⟨l1, w', n', l2, heq, hno⟩ := ih ⟨w, n, h2⟩
      refine ⟨l1, w', n', l2 ++ [e], by rw [heq]; simp, ?_⟩
      intro v' m' hm
      rcases List.mem_append.mp hm with h4 | h4
      · exact hno v' m' h4
      · exact he ⟨v', m', (List.mem_singleton.mp h4).symm⟩

theorem progress_one_of_split (t : ℤ) (pre mid post : List FEvent) (w : Nat) (c0 : Nat)
    (hpre : fAddSum pre = t) (hmid : FEvent.fread w ∉ mid) :
    Msg.progress 1 ∈
      (runF t (pre ++ FEvent.fread w :: (mid ++ FEvent.fput w :: post)) (fInit c0)).q.msgs := by
  rw [runF_append]
  set A := runF t pre (fInit c0) with hA
  have hAb : A.bytesRead = t := by
    rw [hA, runF_bytesRead]
    show (fInit c0).bytesRead + fAddSum pre = t
    rw [hpre]
    show 0 + t = t
    ring
  have h1 : runF t (FEvent.fread w :: (mid ++ FEvent.fput w :: post)) A =
      runF t (mid ++ FEvent.fput w :: post) (fStep t A (FEvent.fread w)) := rfl
  rw [h1, runF_append]
  set B := fStep t A (FEvent.fread w) with hB
  have hBs : B.snaps w = 1 := by
    rw [hB]
    show (if w = w then frac t A.bytesRead else A.snaps w) = 1
    rw [if_pos rfl, hAb]
    exact frac_self t
  set C := runF t mid B with hC
  have hCs : C.snaps w = 1 := by
    rw [hC, runF_snaps_const t w mid B hmid, hBs]
  have h2 : runF t (FEvent.fput w :: post) C = runF t post (fStep t C (FEvent.fput w)) := rfl
  rw [h2]
  apply runF_msgs_extend
  show Msg.progress 1 ∈ (updateProgress (C.snaps w) C.q).msgs
  rw [hCs, updateProgress_one]
  simp

/-- C4 (counterexample): the sequence of Progress fractions in channel
order need not be non-decreasing and the last fraction enqueued need not
be 1.  The well-formed schedule `cSched` — workers 1-5 each credit one of
8 bytes and read a stale fraction, worker 6 credits the last three bytes,
reads the fraction 1 and enqueues it, and then the five stale submissions
follow, the fifth passing the 1-in-5 throttle — puts the fractions 1 and
then 5/8 on the channel. -/
theorem c4_counterexample :
    (wfSched cSched = true ∧ addsNonneg cSched = true ∧ msgsNonProgress cSched = true ∧
     fAddSum cSched = 8) ∧
    ¬ List.Chain' (· ≤ ·) (progressVals (runF 8 cSched (fInit 0)).q.msgs) ∧
    (progressVals (runF 8 cSched (fInit 0)).q.msgs).getLast? ≠ some 1 := by
  have hpv : progressVals (runF 8 cSched (fInit 0)).q.msgs = [1, 5/8] := by
    norm_num [cSched, runF, fStep, fInit, updateProgress, frac, progressVals, List.foldl]
  refine ⟨⟨by decide, by decide, by decide, by decide⟩, ?_, ?_⟩
  · rw [hpv]
    intro hc
    have h2 := List.chain'_cons.mp hc
    norm_num at h2
  · rw [hpv]
    intro hc
    have h3 : ([1, 5/8] : List ℚ).getLast? = some (5/8) := rfl
    rw [h3] at hc
    have h4 : (5 : ℚ)/8 = 1 := Option.some.inj hc
    norm_num at h4

/-- C4: over every interleaving of the workers' separately scheduled
counter increments, fraction reads and enqueue calls: (1) when every
increment is nonnegative and no direct enqueue carries a progress message,
every Progress fraction on the channel lies in [0, 1]; (2) a worker that
reads the shared counter after the increments before that read have summed
to the total, and later submits with no intervening read of its own,
enqueues a Progress of exactly 1 — the throttle never suppresses a
fraction of 1; (3) hence every well-formed schedule whose increments total
the byte count and which credits at least one increment enqueues a
Progress of exactly 1: the worker whose increment is scheduled last then
reads the fraction 1 and submits it. -/
theorem c4_amended (totalBytes : ℤ) (evs : List FEvent) (c0 : Nat) :
    (addsNonneg evs = true → msgsNonProgress evs = true →
      ∀ pv ∈ progressVals (runF totalBytes evs (fInit c0)).q.msgs, 0 ≤ pv ∧ pv ≤ 1) ∧
    (∀ (pre mid post : List FEvent) (w : Nat),
      evs = pre ++ FEvent.fread w :: (mid ++ FEvent.fput w :: post) →
      fAddSum pre = totalBytes → FEvent.fread w ∉ mid →
      Msg.progress 1 ∈ (runF totalBytes evs (fInit c0)).q.msgs) ∧
    (wfSched evs = true → fAddSum evs = totalBytes →
      (∃ w n, FEvent.fadd w n ∈ evs) →
      Msg.progress 1 ∈ (runF totalBytes evs (fInit c0)).q.msgs) := by
  refine ⟨?_, ?_, ?_⟩
  · intro hnn hmp
    refine runF_bounds totalBytes evs (fInit c0) hnn hmp (le_refl 0) ?_ ?_
    · intro v
      exact ⟨le_refl 0, zero_le_one⟩
    · intro pv hpv
      cases hpv
  · intro pre mid post w heq hpre hmid
    rw [heq]
    exact progress_one_of_split totalBytes pre mid post w c0 hpre hmid
  · intro hwf hsum hex
    obtain ⟨l1, w, n, l2, heq, hno⟩ := exists_last_fadd evs hex
    have hmemw : w ∈ workersOf evs := by
      rw [heq]
      unfold workersOf
      rw [List.map_append]
      refine List.mem_append.mpr (Or.inr ?_)
      exact List.mem_cons_self _ _
    have hshape : workerShape (evs.filter (ownedBy w)) = true := by
      unfold wfSched at hwf
      exact List.all_eq_true.mp hwf w hmemw
    have hfe : evs.filter (ownedBy w) =
        l1.filter (ownedBy w) ++ FEvent.fadd w n :: l2.filter (ownedBy w) := by
      rw [heq, List.filter_append]
      congr 1
      rw [List.filter_cons_of_pos (by simp [ownedBy, tagOf])]
    rw [hfe] at hshape
    obtain ⟨v1, v2, b', hb⟩ :=
      shape_split_top (l1.filter (ownedBy w)) (l2.filter (ownedBy w)) w n hshape
    have hv1 : v1 = w := by
      have hmem1 : FEvent.fread v1 ∈ l2.filter (ownedBy w) := by
        rw [hb]
        simp
      have h3 := List.of_mem_filter hmem1
      simpa [ownedBy, tagOf] using h3
    have hv2 : v2 = w := by
      have hmem2 : FEvent.fput v2 ∈ l2.filter (ownedBy w) := by
        rw [hb]
        simp
      have h3 := List.of_mem_filter hmem2
      simpa [ownedBy, tagOf] using h3
    rw [hv1, hv2] at hb
    obtain ⟨u1, v1l, heq2, hu1, hv1f⟩ :=
      filter_cons_split (ownedBy w) l2 (FEvent.fread w) (FEvent.fput w :: b') hb
    obtain ⟨u2, v2l, heq3, hu2, hv2f⟩ :=
      filter_cons_split (ownedBy w) v1l (FEvent.fput w) b' hv1f
    have hevs : evs = (l1 ++ FEvent.fadd w n :: u1) ++
        FEvent.fread w :: (u2 ++ FEvent.fput w :: v2l) := by
      rw [heq, heq2, heq3]
      simp
    have hnoU1 : ∀ v m, FEvent.fadd v m ∉ u1 := by
      intro v m hm
      exact hno v m (by rw [heq2]; exact List.mem_append.mpr (Or.inl hm))
    have hsum2 : fAddSum (l1 ++ FEvent.fadd w n :: u1) = totalBytes := by
      rw [← hsum, heq, fAddSum_append, fAddSum_append]
      have e1 : fAddSum (FEvent.fadd w n :: u1) = n + fAddSum u1 := rfl
      have e2 : fAddSum (FEvent.fadd w n :: l2) = n + fAddSum l2 := rfl
      rw [e1, e2, fAddSum_zero_of_no_fadd u1 hnoU1, fAddSum_zero_of_no_fadd l2 hno]
    have hnr : FEvent.fread w ∉ u2 := by
      intro hm
      have h4 := hu2 (FEvent.fread w) hm
      simp [ownedBy, tagOf] at h4
    rw [hevs]
    exact progress_one_of_split totalBytes (l1 ++ FEvent.fadd w n :: u1) u2 v2l w c0 hsum2 hnr

/-- C4 (witness): a one-worker schedule hashing one two-byte chunk and
enqueueing its result is well formed, its increments total 2, and a
Progress of exactly 1 is enqueued during it. -/
theorem c4_witness :
    (wfSched [FEvent.fadd 1 2, FEvent.fread 1, FEvent.fput 1,
        FEvent.fmsg 1 (Msg.result ["b"] ["b", "f"] ("d0") ("md5"))] = true ∧
     fAddSum [FEvent.fadd 1 2, FEvent.fread 1, FEvent.fput 1,
        FEvent.fmsg 1 (Msg.result ["b"] ["b", "f"] ("d0") ("md5"))] = 2) ∧
    Msg.progress 1 ∈ (runF 2 [FEvent.fadd 1 2, FEvent.fread 1, FEvent.fput 1,
        FEvent.fmsg 1 (Msg.result ["b"] ["b", "f"] ("d0") ("md5"))] (fInit 0)).q.msgs :=
  ⟨⟨by decide, by decide⟩,
   (c4_amended 2 [FEvent.fadd 1 2, FEvent.fread 1, FEvent.fput 1,
        FEvent.fmsg 1 (Msg.result ["b"] ["b", "f"] ("d0") ("md5"))] 0).2.2
     (by decide) (by decide) ⟨1, 2, by simp⟩⟩

theorem processPathNRules_zero (basePath curPath : List String) (node : FSNode)
    (rules : List IgnoreRule) (opts : Opts) (cancel : Nat → Bool) (st : EnumState) :
    processPathNRules 0 basePath curPath node rules opts cancel st = st := rfl

theorem foldChildren_nil (f : List String → FSNode → EnumState → EnumState)
    (curPath : List String) (st : EnumState) :
    foldChildren f curPath [] st = st := rfl

theorem foldChildren_cons (f : List String → FSNode → EnumState → EnumState)
    (curPath : List String) (name : String) (child : FSNode)
    (rest : List (String × FSNode)) (st : EnumState) :
    foldChildren f curPath ((name, child) :: rest) st =
      foldChildren f curPath rest (f (curPath ++ [name]) child st) := rfl

theorem foldChildren_sound (fuel : Nat) (opts : Opts) (cancel : Nat → Bool)
    (hIH : PathSound fuel opts cancel) (basePath : List String)
    (rules : List IgnoreRule) :
    ∀ (cs : List (String × FSNode)) (curPath : List String) (st : EnumState),
      ∃ new : List Job,
        (foldChildren
          (fun p c s => processPathNRules fuel basePath p c rules opts cancel s)
          curPath cs st).jobs = st.jobs ++ new ∧
        (foldChildren
          (fun p c s => processPathNRules fuel basePath p c rules opts cancel s)
          curPath cs st).totalBytes = st.totalBytes + (new.map Job.size).sum ∧
        ∀ j ∈ new, ∃ (name : String) (c : FSNode),
          dirMem name c cs ∧ JobOk opts basePath (curPath ++ [name]) c rules j := by
  intro cs
  induction cs with
  | nil =>
    intro curPath st
    exact ⟨[], by rw [foldChildren_nil]; simp, by rw [foldChildren_nil]; simp, by simp⟩
  | cons pair rest ih =>
    obtain ⟨name, child⟩ := pair
    intro curPath st
    obtain ⟨new1, hjobs1, htot1, hmem1⟩ := hIH basePath (curPath ++ [name]) child rules st
    obtain ⟨new2, hjobs2, htot2, hmem2⟩ :=
      ih curPath (processPathNRules fuel basePath (curPath ++ [name]) child rules opts cancel st)
    refine ⟨new1 ++ new2, ?_, ?_, ?_⟩
    · rw [foldChildren_cons, hjobs2, hjobs1, List.append_assoc]
    · rw [foldChildren_cons, htot2, htot1]
      simp only [List.map_append, List.sum_append]
      omega
    · intro j hj
      rcases List.mem_append.mp hj with hj1 | hj2
      · exact ⟨name, child, List.mem_cons_self _ _, hmem1 j hj1⟩
      · obtain ⟨name2, c2, hdm, hok⟩ := hmem2 j hj2
        exact ⟨name2, c2, List.mem_cons_of_mem _ hdm, hok⟩

theorem processPath_sound (fuel : Nat) (opts : Opts) (cancel : Nat → Bool) :
    PathSound fuel opts cancel := by
  induction fuel with
  | zero =>
    intro basePath curPath node rules st
    exact ⟨[], by rw [processPathNRules_zero]; simp,
      by rw [processPathNRules_zero]; simp, by simp⟩
  | succ fuel ih =>
    intro basePath curPath node rules st
    by_cases hc : cancel st.clock = true
    · refine ⟨[], ?_, ?_, by simp⟩
      · simp only [processPathNRules]
        rw [hc]
        simp
      · simp only [processPathNRules]
        rw [hc]
        simp
    · rw [Bool.not_eq_true] at hc
      by_cases hsym : fsIsSymlink node = true
      · refine ⟨[], ?_, ?_, by simp⟩
        · simp only [processPathNRules]
          rw [hc, hsym]
          simp [updateError]
        · simp only [processPathNRules]
          rw [hc, hsym]
          simp [updateError]
      · rw [Bool.not_eq_true] at hsym
        by_cases hign : isIgnored { segs := curPath, isFile := fsIsFile node } rules = true
        · refine ⟨[], ?_, ?_, by simp⟩
          · simp only [processPathNRules]
            rw [hc, hsym, hign]
            simp
          · simp only [processPathNRules]
            rw [hc, hsym, hign]
            simp
        · rw [Bool.not_eq_true] at hign
          cases node with
          | file size lines =>
            by_cases hz : size = 0
            · subst hz
              refine ⟨[], ?_, ?_, by simp⟩
              · simp only [processPathNRules]
                rw [hc, hsym, hign]
                by_cases he : opts.ignoreEmptyFiles <;> simp [he, updateError]
              · simp only [processPathNRules]
                rw [hc, hsym, hign]
                by_cases he : opts.ignoreEmptyFiles <;> simp [he, updateError]
            · have hres : processPathNRules (fuel + 1) basePath curPath
                  (FSNode.file size lines) rules opts cancel st =
                  { st with clock := st.clock + 1,
                            totalBytes := st.totalBytes + size,
                            jobs := st.jobs ++
                              [{ base := basePath, path := curPath, size := size }] } := by
                simp only [processPathNRules]
                rw [hc, hsym, hign]
                simp [hz]
              refine ⟨[{ base := basePath, path := curPath, size := size }], ?_, ?_, ?_⟩
              · rw [hres]
              · rw [hres]
                simp
              · intro j hj
                have hj2 : j = { base := basePath, path := curPath, size := size } := by
                  simpa using hj
                subst hj2
                refine ⟨by simpa using Nat.pos_of_ne_zero hz, rfl,
                  FSNode.file size lines, rules, lines, Visits.refl _ _ _, rfl, ?_⟩
                have hf : fsIsFile (FSNode.file size lines) = true := rfl
                rw [hf] at hign
                exact hign
          | dir cs =>
            by_cases hrec : opts.recursive = true
            · have hres : processPathNRules (fuel + 1) basePath curPath (FSNode.dir cs)
                  rules opts cancel st =
                  foldChildren
                    (fun p c s => processPathNRules fuel basePath p c
                      (localRulesOf opts rules cs curPath) opts cancel s)
                    curPath cs { st with clock := st.clock + 1 } := by
                simp only [processPathNRules]
                rw [hc, hsym, hign, hrec]
                simp
              obtain ⟨new, hjobs, htot, hmem⟩ := foldChildren_sound fuel opts cancel ih
                basePath (localRulesOf opts rules cs curPath) cs curPath
                { st with clock := st.clock + 1 }
              refine ⟨new, ?_, ?_, ?_⟩
              · rw [hres, hjobs]
              · rw [hres, htot]
              · intro j hj
                obtain ⟨name, c, hdm, hpos, hbase, n2, rules2, lines2, hvis, hfile, hig⟩ :=
                  hmem j hj
                exact ⟨hpos, hbase, n2, rules2, lines2,
                  Visits.child curPath cs rules name c j.path n2 rules2 hrec hdm hvis,
                  hfile, hig⟩
            · refine ⟨[], ?_, ?_, by simp⟩
              · simp only [processPathNRules]
                rw [hc, hsym, hign]
                simp [hrec]
              · simp only [processPathNRules]
                rw [hc, hsym, hign]
                simp [hrec]
          | symlink t =>
            simp [fsIsSymlink] at hsym

theorem rootChildren_nil (fuel : Nat) (basePath rootPath : List String)
    (rules : List IgnoreRule) (opts : Opts) (cancel : Nat → Bool) (st : EnumState) :
    rootChildren fuel basePath rootPath [] rules opts cancel st = st := rfl

theorem rootChildren_cons (fuel : Nat) (basePath rootPath : List String) (name : String)
    (c : FSNode) (rest : List (String × FSNode)) (rules : List IgnoreRule) (opts : Opts)
    (cancel : Nat → Bool) (st : EnumState) :
    rootChildren fuel basePath rootPath ((name, c) :: rest) rules opts cancel st =
      rootChildren fuel basePath rootPath rest rules opts cancel
        (if isIgnored { segs := rootPath ++ [name], isFile := fsIsFile c } rules then st
         else processPathNRules fuel basePath (rootPath ++ [name]) c rules opts cancel st) := rfl

theorem rootChildren_sound (fuel : Nat) (opts : Opts) (cancel : Nat → Bool)
    (basePath rootPath : List String) (rules : List IgnoreRule) :
    ∀ (cs : List (String × FSNode)) (st : EnumState),
      ∃ new : List Job,
        (rootChildren fuel basePath rootPath cs rules opts cancel st).jobs =
          st.jobs ++ new ∧
        (rootChildren fuel basePath rootPath cs rules opts cancel st).totalBytes =
          st.totalBytes + (new.map Job.size).sum ∧
        ∀ j ∈ new, ∃ (name : String) (c : FSNode),
          (name, c) ∈ cs ∧
          isIgnored { segs := rootPath ++ [name], isFile := fsIsFile c } rules = false ∧
          JobOk opts basePath (rootPath ++ [name]) c rules j := by
  intro cs
  induction cs with
  | nil =>
    intro st
    exact ⟨[], by rw [rootChildren_nil]; simp, by rw [rootChildren_nil]; simp, by simp⟩
  | cons pair rest ih =>
    obtain ⟨name, c⟩ := pair
    intro st
    by_cases hig : isIgnored { segs := rootPath ++ [name], isFile := fsIsFile c } rules = true
    · obtain ⟨new, hjobs, htot, hmem⟩ := ih st
      refine ⟨new, ?_, ?_, ?_⟩
      · rw [rootChildren_cons, if_pos hig]
        exact hjobs
      · rw [rootChildren_cons, if_pos hig]
        exact htot
      · intro j hj
        obtain ⟨name2, c2, hm, hig2, hok⟩ := hmem j hj
        exact ⟨name2, c2, List.mem_cons_of_mem _ hm, hig2, hok⟩
    · rw [Bool.not_eq_true] at hig
      obtain ⟨new1, hjobs1, htot1, hmem1⟩ :=
        processPath_sound fuel opts cancel basePath (rootPath ++ [name]) c rules st
      obtain ⟨new2, hjobs2, htot2, hmem2⟩ :=
        ih (processPathNRules fuel basePath (rootPath ++ [name]) c rules opts cancel st)
      refine ⟨new1 ++ new2, ?_, ?_, ?_⟩
      · rw [rootChildren_cons, if_neg (by rw [hig]; exact fun h => Bool.noConfusion h),
          hjobs2, hjobs1, List.append_assoc]
      · rw [rootChildren_cons, if_neg (by rw [hig]; exact fun h => Bool.noConfusion h),
          htot2, htot1]
        simp only [List.map_append, List.sum_append]
        omega
      · intro j hj
        rcases List.mem_append.mp hj with hj1 | hj2
        · exact ⟨name, c, List.mem_cons_self _ _, hig, hmem1 j hj1⟩
        · obtain ⟨name2, c2, hm, hig2, hok⟩ := hmem2 j hj2
          exact ⟨name2, c2, List.mem_cons_of_mem _ hm, hig2, hok⟩

theorem rootStep_sound (fuel : Nat) (opts : Opts) (cancel : Nat → Bool)
    (st : EnumState) (r : RootSpec) :
    ∃ new : List Job,
      (rootStep fuel opts cancel st r).jobs = st.jobs ++ new ∧
      (rootStep fuel opts cancel st r).totalBytes =
        st.totalBytes + (new.map Job.size).sum ∧
      ∀ j ∈ new, RootJobOk opts r j := by
  rcases hr : r.node with _ | n
  · refine ⟨[], ?_, ?_, by simp⟩
    · unfold rootStep
      rw [hr]
      simp [updateError]
    · unfold rootStep
      rw [hr]
      simp [updateError]
  · by_cases hex : fsExists n = true
    · by_cases hdir : fsIsDir n = true
      · have hstep : rootStep fuel opts cancel st r =
            rootChildren fuel r.base r.segs (fsChildren n) (rootRulesOf opts n r.segs)
              opts cancel st := by
          unfold rootStep
          rw [hr]
          simp [hex, hdir]
        obtain ⟨new, hjobs, htot, hmem⟩ := rootChildren_sound fuel opts cancel r.base r.segs
          (rootRulesOf opts n r.segs) (fsChildren n) st
        refine ⟨new, ?_, ?_, ?_⟩
        · rw [hstep]
          exact hjobs
        · rw [hstep]
          exact htot
        · intro j hj
          obtain ⟨name, c, hm, hig2, hpos, hbase, n2, rules2, lines2, hvis, hfile, hig⟩ :=
            hmem j hj
          refine ⟨hpos, hbase, n2, rules2, lines2, ?_, hfile, hig⟩
          rw [hbase]
          exact VisitsFrom.fromDirRoot r n name c j.path n2 rules2
            (List.mem_singleton_self r) hr hex hdir hm hig2 hvis
      · rw [Bool.not_eq_true] at hdir
        by_cases hfile : fsIsFile n = true
        · have hstep : rootStep fuel opts cancel st r =
              processPathNRules fuel r.base r.segs n [] opts cancel st := by
            unfold rootStep
            rw [hr]
            simp [hex, hdir, hfile]
          obtain ⟨new, hjobs, htot, hmem⟩ :=
            processPath_sound fuel opts cancel r.base r.segs n [] st
          refine ⟨new, ?_, ?_, ?_⟩
          · rw [hstep]
            exact hjobs
          · rw [hstep]
            exact htot
          · intro j hj
            obtain ⟨hpos, hbase, n2, rules2, lines2, hvis, hf2, hig⟩ := hmem j hj
            refine ⟨hpos, hbase, n2, rules2, lines2, ?_, hf2, hig⟩
            rw [hbase]
            exact VisitsFrom.fromFileRoot r n j.path n2 rules2
              (List.mem_singleton_self r) hr hex hdir hfile hvis
        · rw [Bool.not_eq_true] at hfile
          refine ⟨[], ?_, ?_, by simp⟩
          · unfold rootStep
            rw [hr]
            simp [hex, hdir, hfile]
          · unfold rootStep
            rw [hr]
            simp [hex, hdir, hfile]
    · rw [Bool.not_eq_true] at hex
      refine ⟨[], ?_, ?_, by simp⟩
      · unfold rootStep
        rw [hr]
        simp [hex, updateError]
      · unfold rootStep
        rw [hr]
        simp [hex, updateError]

theorem foldRoots_sound (fuel : Nat) (opts : Opts) (cancel : Nat → Bool) :
    ∀ (rs : List RootSpec) (st : EnumState),
      ∃ new : List Job,
        (rs.foldl (rootStep fuel opts cancel) st).jobs = st.jobs ++ new ∧
        (rs.foldl (rootStep fuel opts cancel) st).totalBytes =
          st.totalBytes + (new.map Job.size).sum ∧
        ∀ j ∈ new, ∃ r : RootSpec, r ∈ rs ∧ RootJobOk opts r j := by
  intro rs
  induction rs with
  | nil =>
    intro st
    exact ⟨[], by simp, by simp, by simp⟩
  | cons r rest ih =>
    intro st
    obtain ⟨new1, hjobs1, htot1, hmem1⟩ := rootStep_sound fuel opts cancel st r
    obtain ⟨new2, hjobs2, htot2, hmem2⟩ := ih (rootStep fuel opts cancel st r)
    have hstep : (r :: rest).foldl (rootStep fuel opts cancel) st =
        rest.foldl (rootStep fuel opts cancel) (rootStep fuel opts cancel st r) := rfl
    refine ⟨new1 ++ new2, ?_, ?_, ?_⟩
    · rw [hstep, hjobs2, hjobs1, List.append_assoc]
    · rw [hstep, htot2, htot1]
      simp only [List.map_append, List.sum_append]
      omega
    · intro j hj
      rcases List.mem_append.mp hj with hj1 | hj2
      · exact ⟨r, List.mem_cons_self _ _, hmem1 j hj1⟩
      · obtain ⟨r2, hm, hok⟩ := hmem2 j hj2
        exact ⟨r2, List.mem_cons_of_mem _ hm, hok⟩

theorem visitsFrom_mono (roots : List RootSpec) (opts : Opts) (r : RootSpec)
    (hr : r ∈ roots) (b segs : List String) (n : FSNode) (rules : List IgnoreRule)
    (h : VisitsFrom [r] opts b segs n rules) : VisitsFrom roots opts b segs n rules := by
  cases h with
  | fromFileRoot r0 n0 _ _ _ hmem hnode hex hdir hfile hvis =>
    have hr0 : r0 = r := by simpa using hmem
    subst hr0
    exact VisitsFrom.fromFileRoot r0 n0 segs n rules hr hnode hex hdir hfile hvis
  | fromDirRoot r0 n0 name c _ _ _ hmem hnode hex hdir hm hig hvis =>
    have hr0 : r0 = r := by simpa using hmem
    subst hr0
    exact VisitsFrom.fromDirRoot r0 n0 name c segs n rules hr hnode hex hdir hm hig hvis

/-- C9: every job produced by `_create_jobs` — through a file root, or
through a surviving child of a directory root and any chain of recursive
directory visits — is for a regular (non-symlink) file whose stat size,
sampled at that single visit, is the job's size and is strictly positive,
and which the IgnoreSet in force at that visit does not ignore; the shared
byte total equals the sum of the job sizes. -/
theorem c9_jobs (fuel : Nat) (roots : List RootSpec) (opts : Opts) (cancel : Nat → Bool)
    (q0 : QState) (clock0 : Nat) :
    (createJobs fuel roots opts cancel q0 clock0).totalBytes =
      ((createJobs fuel roots opts cancel q0 clock0).jobs.map Job.size).sum ∧
    ∀ j ∈ (createJobs fuel roots opts cancel q0 clock0).jobs,
      0 < j.size ∧
      ∃ (n2 : FSNode) (rules2 : List IgnoreRule) (lines2 : List (List Char)),
        VisitsFrom roots opts j.base j.path n2 rules2 ∧
        n2 = FSNode.file j.size lines2 ∧
        fsIsSymlink n2 = false ∧
        isIgnored { segs := j.path, isFile := true } rules2 = false := by
  obtain ⟨new, hjobs, htot, hmem⟩ := foldRoots_sound fuel opts cancel roots
    { jobs := [], q := q0, totalBytes := 0, clock := clock0 }
  have hj : (createJobs fuel roots opts cancel q0 clock0).jobs =
      (roots.foldl (rootStep fuel opts cancel)
        { jobs := [], q := q0, totalBytes := 0, clock := clock0 }).jobs := by
    simp only [createJobs]
    split <;> rfl
  have ht : (createJobs fuel roots opts cancel q0 clock0).totalBytes =
      (roots.foldl (rootStep fuel opts cancel)
        { jobs := [], q := q0, totalBytes := 0, clock := clock0 }).totalBytes := by
    simp only [createJobs]
    split <;> rfl
  have hjobs2 : (roots.foldl (rootStep fuel opts cancel)
      { jobs := [], q := q0, totalBytes := 0, clock := clock0 }).jobs = new := by
    rw [hjobs]
    rfl
  constructor
  · rw [hj, ht, hjobs2, htot]
    simp
  · intro j hjin
    rw [hj, hjobs2] at hjin
    obtain ⟨r, hrin, hpos, hbase, n2, rules2, lines2, hvf, hfile, hig⟩ := hmem j hjin
    refine ⟨hpos, n2, rules2, lines2,
      visitsFrom_mono roots opts r hrin j.base j.path n2 rules2 hvf, hfile, ?_, hig⟩
    rw [hfile]
    rfl

/-- C9 (witness): a one-root, one-file tree where the single job is the
3-byte file, with the membership hypothesis discharged by computation. -/
theorem c9_witness :
    (({ base := ["r"], path := ["r", "f"], size := 3 } : Job) ∈
      (createJobs 2
        [{ base := ["r"], segs := ["r"],
           node := some (FSNode.dir [("f", FSNode.file 3 [])]) }]
        { recursive := true, gitignore := false, ignoreEmptyFiles := false }
        (fun _ => false) { c := 0, msgs := [] } 0).jobs) ∧
    (0 < (3 : Nat) ∧
      ∃ (n2 : FSNode) (rules2 : List IgnoreRule) (lines2 : List (List Char)),
        VisitsFrom
          [{ base := ["r"], segs := ["r"],
             node := some (FSNode.dir [("f", FSNode.file 3 [])]) }]
          { recursive := true, gitignore := false, ignoreEmptyFiles := false }
          ["r"] ["r", "f"] n2 rules2 ∧
        n2 = FSNode.file 3 lines2 ∧
        fsIsSymlink n2 = false ∧
        isIgnored { segs := ["r", "f"], isFile := true } rules2 = false) :=
  ⟨by decide,
   (c9_jobs 2
      [{ base := ["r"], segs := ["r"],
         node := some (FSNode.dir [("f", FSNode.file 3 [])]) }]
      { recursive := true, gitignore := false, ignoreEmptyFiles := false }
      (fun _ => false) { c := 0, msgs := [] } 0).2
     { base := ["r"], path := ["r", "f"], size := 3 } (by decide)⟩





end QFH
